import Mathlib

/-!
# sList: a singly linked list of dynamically typed values

Shallow embedding of `list.go` (package `linkedList`).

Go pointers `*Node` are addresses into an explicit heap; the heap is a list of
nodes and the address of a node is its index, so a fresh allocation
(`&Node{...}`) appends a cell. `nil` is `none`. The pointer receiver
`l *List` becomes state passing of the heap together with the list record.
The package variables `currN` and `called` used by `Range` are the record
`Globals`.

The comparison `curr.Data == val` and the lookup `dMap[curr.Data]` are
fallible, as in Go: `goEq` and `mapGet` panic on values of an uncomparable
dynamic type.

Loops that follow `Next` pointers take fuel. Every operation runs its loops
with the number of heap cells as fuel: a walk that has not ended after that
many nodes has visited some address twice and never ends in Go either.
-/

namespace linkedList

/-- The dynamic types of the modelled values. A defined type is identified by
the import path of its package and by its name; `pkgName` is the name of that
package (the one its package clause declares). -/
inductive GoType where
  | nilType
  | int
  | string
  | bool
  | sliceInt
  | defined (pkgPath pkgName name : String)
  deriving DecidableEq

/-- Whether Go can compare (and hash) values of the type: a slice type cannot. -/
def GoType.comparable : GoType → Bool
  | .sliceInt => false
  | _ => true

/-- The dynamic values held in `Node.Data` (Go `interface{}`): the nil
interface, values of the predeclared types `int`, `string` and `bool`, values
of defined types with underlying type `int`, and slices `[]int`, which stand
for the values Go can neither compare nor hash (those of slice, map and func
types). Floating-point values are not modelled. -/
inductive Value where
  | nil
  | int (n : Int)
  | str (s : String)
  | bool (b : Bool)
  | slice (xs : List Int)
  | defined (pkgPath pkgName name : String) (n : Int)
  deriving DecidableEq

/-- The dynamic type of a value. -/
def Value.dynType : Value → GoType
  | .nil => .nilType
  | .int _ => .int
  | .str _ => .string
  | .bool _ => .bool
  | .slice _ => .sliceInt
  | .defined pkgPath pkgName name _ => .defined pkgPath pkgName name

/-- Whether the dynamic type of the value is comparable. -/
def Value.comparable (v : Value) : Bool := v.dynType.comparable

/-- The text `fmt.Sprintf("%T", v)` of a value, which is what `Insert`
compares. For a defined type it is the package name, a dot and the type name,
without the import path: types of the same name declared in two packages of
the same name have the same text. -/
def Value.typeName : Value → String
  | .nil => "<nil>"
  | .int _ => "int"
  | .str _ => "string"
  | .bool _ => "bool"
  | .slice _ => "[]int"
  | .defined _ pkgName name _ => pkgName ++ "." ++ name

/-- Source `type Node struct`: the successor pointer and the stored value. -/
structure Node where
  Next : Option Nat
  Data : Value
  deriving DecidableEq

/-- The memory holding nodes: the cell at index `a` is the node at address `a`. -/
abbrev Heap := List Node

/-- Source `type List struct` (named `SList` after the repository, since
`List` is the sequence type of the logic). -/
structure SList where
  Head : Option Nat
  Tail : Option Nat
  Typed : Bool
  deriving DecidableEq

/-- The three sentinel errors of the package; `ErrMismatchedTypes` carries the
message attached by `errors.Wrap`. -/
inductive Error where
  | ErrEmptyList
  | ErrNodeNotFound
  | ErrMismatchedTypes (msg : String)
  deriving DecidableEq

/-- Abnormal ends of a run: the run-time panics of Go (a nil or invalid
pointer dereference, a comparison of two values of one uncomparable type, the
hashing of a value of an uncomparable type as a map key), and exhausted fuel,
which stands for a loop that does not end. -/
inductive Fault where
  | nilDeref
  | uncomparable
  | unhashable
  | outOfFuel
  deriving DecidableEq

/-- The package variables `currN` and `called` (source lines 163-166). -/
structure Globals where
  currN : Option Nat
  called : Bool
  deriving DecidableEq

/-- One line written by `Display`: the header, or a row with the index, the
value and the successor (`none` is the `<nil>` marker of the last row). -/
inductive Line where
  | header
  | row (i : Nat) (v : Value) (next : Option Nat)
  deriving DecidableEq

/-- Go `a == b` on two interface values: false when the dynamic types differ,
the equality of the values when they have one comparable dynamic type, and a
run-time panic when they have one uncomparable dynamic type. -/
def goEq (a b : Value) : Except Fault Bool :=
  if a.dynType = b.dynType then
    if a.dynType.comparable then .ok (decide (a = b)) else .error .uncomparable
  else .ok false

/-- The lookup `dMap[k]` in a `map[interface{}]bool` given as the function from
a key to its stored flag (`false` for an absent key): hashing the key panics
when its dynamic type is uncomparable, also on an empty map. -/
def mapGet (dMap : Value → Bool) (k : Value) : Except Fault Bool :=
  if k.comparable then .ok (dMap k) else .error .unhashable

/-- Reading through a pointer: `p.Field` panics when `p` is nil. -/
def deref (h : Heap) (p : Option Nat) : Except Fault Node :=
  match p with
  | none => .error .nilDeref
  | some a =>
    match h[a]? with
    | some n => .ok n
    | none => .error .nilDeref

/-- The assignment `p.Next = next`. -/
def setNext (h : Heap) (p : Option Nat) (next : Option Nat) : Except Fault Heap :=
  match p with
  | none => .error .nilDeref
  | some a =>
    match h[a]? with
    | some n => .ok (h.set a { Next := next, Data := n.Data })
    | none => .error .nilDeref

/-- Source `CreateList`: `Head` is nil, `Tail` is left at its zero value. -/
def CreateList (typed : Bool) : SList :=
  { Head := none, Tail := none, Typed := typed }

/-- Source `checkEmpty`. -/
def checkEmpty (l : SList) : Option Error :=
  match l.Head with
  | none => some .ErrEmptyList
  | some _ => none

/-- The loop `for curr.Next != nil { curr = curr.Next }` of `Insert`
(lines 56-59): the address of the node the loop stops at. -/
def lastNode : Nat → Heap → Nat → Except Fault Nat
  | 0, _, _ => .error .outOfFuel
  | f + 1, h, curr =>
    match deref h (some curr) with
    | .error e => .error e
    | .ok c =>
      match c.Next with
      | none => .ok curr
      | some nx => lastNode f h nx

/-- Source `Insert` (lines 43-64). The new node is allocated first, as in the
source; on a type mismatch it stays unreachable. The head node is read once,
for the type test and for the start of the walk to the last node. -/
def Insert (h : Heap) (l : SList) (d : Value) : Except Fault (Heap × SList × Option Error) :=
  let newNode := h.length
  let h1 := h ++ [{ Next := none, Data := d }]
  match l.Head with
  | none => .ok (h1, { Head := some newNode, Tail := l.Tail, Typed := l.Typed }, none)
  | some hd =>
    match deref h1 (some hd) with
    | .error e => .error e
    | .ok hn =>
      if l.Typed && hn.Data.typeName != d.typeName then
        .ok (h1, l, some (.ErrMismatchedTypes
          ("Cannot insert value of type (" ++ d.typeName ++
            ") into list having type (" ++ hn.Data.typeName ++ ")")))
      else
        match lastNode h1.length h1 hd with
        | .error e => .error e
        | .ok curr =>
          match setNext h1 (some curr) (some newNode) with
          | .error e => .error e
          | .ok h2 => .ok (h2, l, none)

/-- The loop of `Display` (lines 78-83) together with the final row. -/
def displayLoop : Nat → Heap → Nat → Nat → List Line → Except Fault (List Line)
  | 0, _, _, _, _ => .error .outOfFuel
  | f + 1, h, first, i, out =>
    match deref h (some first) with
    | .error e => .error e
    | .ok n =>
      match n.Next with
      | some nx => displayLoop f h nx (i + 1) (out ++ [.row i n.Data (some nx)])
      | none => .ok (out ++ [.row i n.Data none])

/-- Source `Display` (lines 67-86): the lines written and the error returned.
The heap and the list are returned as they are: the method writes to neither. -/
def Display (h : Heap) (l : SList) : Except Fault (Heap × SList × List Line × Option Error) :=
  match checkEmpty l with
  | some err => .ok (h, l, [], some err)
  | none =>
    match l.Head with
    | none => .error .nilDeref
    | some first =>
      match displayLoop h.length h first 1 [.header] with
      | .error e => .error e
      | .ok out => .ok (h, l, out, none)

/-- The loop of `reorder` (lines 124-130). The test `&curr.Next == &prev.Next`
compares the addresses of the two fields, which are equal exactly when `curr`
and `prev` are the same node. -/
def reorderLoop : Nat → Heap → Nat → Nat → Option Nat → Except Fault Heap
  | 0, _, _, _, _ => .error .outOfFuel
  | f + 1, h, curr, prev, next =>
    match deref h (some curr) with
    | .error e => .error e
    | .ok c =>
      match c.Next with
      | none => .ok h
      | some nx =>
        if curr = prev then setNext h (some curr) next
        else reorderLoop f h nx prev next

/-- Source `reorder` (lines 118-131). -/
def reorder (h : Heap) (l : SList) (prev next : Option Nat) : Except Fault (Heap × SList) :=
  match prev with
  | none =>
    match deref h l.Head with
    | .error e => .error e
    | .ok c => .ok (h, { Head := c.Next, Tail := l.Tail, Typed := l.Typed })
  | some p =>
    match l.Head with
    | none => .error .nilDeref
    | some curr =>
      match reorderLoop h.length h curr p next with
      | .error e => .error e
      | .ok h1 => .ok (h1, l)

/-- The loop of `RemoveNode` (lines 100-108): the heap and list after it, the
final `prev` and `curr`, and the flag `broke`. -/
def removeLoop : Nat → Heap → SList → Option Nat → Nat → Value →
    Except Fault (Heap × SList × Option Nat × Nat × Bool)
  | 0, _, _, _, _, _ => .error .outOfFuel
  | f + 1, h, l, prev, curr, val =>
    match deref h (some curr) with
    | .error e => .error e
    | .ok c =>
      match c.Next with
      | none => .ok (h, l, prev, curr, false)
      | some nx =>
        match goEq c.Data val with
        | .error e => .error e
        | .ok true =>
          match reorder h l prev (some nx) with
          | .error e => .error e
          | .ok (h1, l1) => .ok (h1, l1, prev, curr, true)
        | .ok false => removeLoop f h l (some curr) nx val

/-- Source `RemoveNode` (lines 89-116). -/
def RemoveNode (h : Heap) (l : SList) (val : Value) :
    Except Fault (Heap × SList × Option Error) :=
  match checkEmpty l with
  | some err => .ok (h, l, some err)
  | none =>
    match l.Head with
    | none => .error .nilDeref
    | some hd =>
      match removeLoop h.length h l none hd val with
      | .error e => .error e
      | .ok (h1, l1, prev, curr, broke) =>
        if broke then .ok (h1, l1, some .ErrNodeNotFound)
        else
          match deref h1 (some curr) with
          | .error e => .error e
          | .ok c =>
            match goEq c.Data val with
            | .error e => .error e
            | .ok true =>
              match reorder h1 l1 prev c.Next with
              | .error e => .error e
              | .ok (h2, l2) => .ok (h2, l2, none)
            | .ok false => .ok (h1, l1, some .ErrNodeNotFound)

/-- The loop of `RemoveDuplicates` (lines 146-155). The map `dMap` is the
function giving the stored flag of a key, `false` for an absent key. The
assignment `dMap[curr.Data] = true` hashes a key that the lookup of the same
iteration has already hashed, so it adds no panic of its own. -/
def dupLoop : Nat → Heap → Option Nat → Nat → (Value → Bool) →
    Except Fault (Heap × Option Nat × Nat × (Value → Bool))
  | 0, _, _, _, _ => .error .outOfFuel
  | f + 1, h, prev, curr, dMap =>
    match deref h (some curr) with
    | .error e => .error e
    | .ok c =>
      match c.Next with
      | none => .ok (h, prev, curr, dMap)
      | some nx =>
        match mapGet dMap c.Data with
        | .error e => .error e
        | .ok true =>
          match setNext h prev (some nx) with
          | .error e => .error e
          | .ok h1 => dupLoop f h1 prev nx dMap
        | .ok false =>
          dupLoop f h (some curr) nx (fun k => if k = c.Data then true else dMap k)

/-- Source `RemoveDuplicates` (lines 135-161). -/
def RemoveDuplicates (h : Heap) (l : SList) : Except Fault (Heap × SList × Option Error) :=
  match checkEmpty l with
  | some err => .ok (h, l, some err)
  | none =>
    match l.Head with
    | none => .error .nilDeref
    | some hd =>
      match dupLoop h.length h none hd (fun _ => false) with
      | .error e => .error e
      | .ok (h1, prev, curr, dMap) =>
        match deref h1 (some curr) with
        | .error e => .error e
        | .ok c =>
          match mapGet dMap c.Data with
          | .error e => .error e
          | .ok true =>
            match setNext h1 prev l.Tail with
            | .error e => .error e
            | .ok h2 => .ok (h2, l, none)
          | .ok false => .ok (h1, l, none)

/-- Source `Range` (lines 176-196): the heap and the package variables after
the call, and the returned pair `(end, val)`. -/
def Range (h : Heap) (g : Globals) (l : SList) :
    Except Fault (Heap × Globals × Bool × Value) :=
  if !g.called then
    match checkEmpty l with
    | some _ => .ok (h, g, true, .nil)
    | none =>
      match deref h l.Head with
      | .error e => .error e
      | .ok n => .ok (h, { currN := l.Head, called := true }, false, n.Data)
  else
    match deref h g.currN with
    | .error e => .error e
    | .ok c =>
      match c.Next with
      | none =>
        let fresh : Node := { Next := none, Data := .nil }
        .ok (h ++ [fresh], { currN := some h.length, called := false }, true, fresh.Data)
      | some nx =>
        match deref h (some nx) with
        | .error e => .error e
        | .ok n => .ok (h, { currN := some nx, called := g.called }, false, n.Data)

/-- The list segment predicate: following `Next` from `p` visits the cells
`cs` (address and value of each node, in order) and arrives at `q`. -/
def Seg (h : Heap) : Option Nat → List (Nat × Value) → Option Nat → Prop
  | p, [], q => p = q
  | p, c :: cs, q =>
    ∃ nx, p = some c.1 ∧ h[c.1]? = some { Next := nx, Data := c.2 } ∧ Seg h nx cs q

/-- The chain from `p` is nil-terminated and holds the values `xs` in order. -/
def Chain (h : Heap) : Option Nat → List Value → Prop
  | p, [] => p = none
  | p, x :: xs =>
    match p with
    | none => False
    | some a =>
      match h[a]? with
      | none => False
      | some n => n.Data = x ∧ Chain h n.Next xs

/-! ## Drivers, specification functions and example states -/

/-- A run of `Insert` calls, one per value, on the same list: the final heap
and list and the error returned by each call. -/
def insertAll (h : Heap) (l : SList) : List Value →
    Except Fault (Heap × SList × List (Option Error))
  | [] => .ok (h, l, [])
  | v :: vs =>
    match Insert h l v with
    | .error e => .error e
    | .ok (h1, l1, err) =>
      match insertAll h1 l1 vs with
      | .error e => .error e
      | .ok (h2, l2, errs) => .ok (h2, l2, err :: errs)

/-- The value of `prev` after the scanning loop has walked over the cells `cs`. -/
def lastAddr : Option Nat → List (Nat × Value) → Option Nat
  | prev, [] => prev
  | _, c :: cs => lastAddr (some c.1) cs

/-- The error returned by `RemoveNode` on a list holding `xs`: none exactly when
the first node holding `val` is the last node. -/
def removeResult (val : Value) (xs : List Value) : Option Error :=
  if val ∉ xs.dropLast ∧ xs.getLast? = some val then none else some .ErrNodeNotFound

/-- One step of the duplicate scan on the kept values: a value seen before is
dropped, a new value is appended. -/
def keepStep (acc : List Value) (x : Value) : List Value :=
  if x ∈ acc then acc else acc ++ [x]

/-- The first occurrence of each distinct value, in the original order. -/
def firstOccurrences : List Value → List Value
  | [] => []
  | x :: xs => x :: (firstOccurrences xs).filter (fun y => decide (y ≠ x))

/-- A run of `n` successive calls of `Range` on the same list, as the usage
loop makes them: the heap and package variables at the end and the pair
returned by each call. -/
def rangeCalls : Nat → Heap → Globals → SList →
    Except Fault (Heap × Globals × List (Bool × Value))
  | 0, h, g, _ => .ok (h, g, [])
  | n + 1, h, g, l =>
    match Range h g l with
    | .error e => .error e
    | .ok (h1, g1, r) =>
      match rangeCalls n h1 g1 l with
      | .error e => .error e
      | .ok (h2, g2, rs) => .ok (h2, g2, r :: rs)

/-- The heap of the list `[1, 2, 3, 2]` built by four `Insert` calls on an
empty heap. -/
def heap1232 : Heap :=
  [Node.mk (some 1) (.int 1), Node.mk (some 2) (.int 2), Node.mk (some 3) (.int 3),
    Node.mk none (.int 2)]

/-- The heap of the list `[10, 20, 30]`. -/
def heap102030 : Heap :=
  [Node.mk (some 1) (.int 10), Node.mk (some 2) (.int 20), Node.mk none (.int 30)]

/-- An untyped list record whose head is the node at address 0. -/
def listAt0 : SList := { Head := some 0, Tail := none, Typed := false }

/-- A typed list record whose head is the node at address 0. -/
def typedAt0 : SList := { Head := some 0, Tail := none, Typed := true }

/-- The heap of the one-node list `[10]`. -/
def heap10 : Heap := [Node.mk none (.int 10)]

/-- The package variables when no traversal is active. -/
def idle : Globals := { currN := none, called := false }

/-! ## Sequences of method calls -/

/-- A call of one of the five methods of a list. -/
inductive Op where
  | insert (v : Value)
  | removeNode (v : Value)
  | removeDuplicates
  | display
  | range
  deriving DecidableEq

/-- One method call on the program state (heap, package variables, list). The
error a method returns is dropped: the caller goes on with the list whatever
it was. `Range` has a value receiver and cannot write to the list record. -/
def step (h : Heap) (g : Globals) (l : SList) : Op → Except Fault (Heap × Globals × SList)
  | .insert v =>
    match Insert h l v with
    | .error e => .error e
    | .ok (h1, l1, _) => .ok (h1, g, l1)
  | .removeNode v =>
    match RemoveNode h l v with
    | .error e => .error e
    | .ok (h1, l1, _) => .ok (h1, g, l1)
  | .removeDuplicates =>
    match RemoveDuplicates h l with
    | .error e => .error e
    | .ok (h1, l1, _) => .ok (h1, g, l1)
  | .display =>
    match Display h l with
    | .error e => .error e
    | .ok (h1, l1, _, _) => .ok (h1, g, l1)
  | .range =>
    match Range h g l with
    | .error e => .error e
    | .ok (h1, g1, _, _) => .ok (h1, g1, l)

/-- A sequence of method calls on one list. -/
def run (h : Heap) (g : Globals) (l : SList) : List Op → Except Fault (Heap × Globals × SList)
  | [] => .ok (h, g, l)
  | op :: ops =>
    match step h g l op with
    | .error e => .error e
    | .ok (h1, g1, l1) => run h1 g1 l1 ops

/-- The rows `Display` writes for the cells of a chain, numbered from `i`: each
row shows the address of the next cell, the last row the nil marker. -/
def rowsOf : Nat → List (Nat × Value) → List Line
  | _, [] => []
  | i, [c] => [.row i c.2 none]
  | i, c :: d :: rest => .row i c.2 (some d.1) :: rowsOf (i + 1) (d :: rest)

/-- The usage loop of the doc comment of `Range`,
`for end, val := l.Range(); !end; end, val = l.Range()`, with at most `fuel`
calls: the values on which the body runs. -/
def forRange : Nat → Heap → Globals → SList → Except Fault (Heap × Globals × List Value)
  | 0, _, _, _ => .error .outOfFuel
  | fuel + 1, h, g, l =>
    match Range h g l with
    | .error e => .error e
    | .ok (h1, g1, fin, val) =>
      if fin then .ok (h1, g1, [])
      else
        match forRange fuel h1 g1 l with
        | .error e => .error e
        | .ok (h2, g2, vals) => .ok (h2, g2, val :: vals)

/-- All values of a sequence have one and the same `%T` type text. -/
def Homogeneous (xs : List Value) : Prop :=
  ∀ x ∈ xs, ∀ y ∈ xs, x.typeName = y.typeName

/-- No comparison of `val` with a value of `xs` panics: `val` shares no
uncomparable dynamic type with a value of `xs`. -/
def ComparesWith (val : Value) (xs : List Value) : Prop :=
  ∀ x ∈ xs, x.dynType = val.dynType → val.comparable = true

/-- Every value of the sequence has a comparable (hashable) dynamic type. -/
def AllComparable (xs : List Value) : Prop :=
  ∀ x ∈ xs, x.comparable = true

instance (val : Value) (xs : List Value) : Decidable (ComparesWith val xs) :=
  List.decidableBAll _ xs

instance (xs : List Value) : Decidable (AllComparable xs) :=
  List.decidableBAll _ xs

/-- The value a call passes is of a comparable dynamic type (calls without a
value count as such). -/
def Op.comparable : Op → Bool
  | .insert v => v.comparable
  | .removeNode v => v.comparable
  | _ => true

/-- A value of the defined type `ID` (underlying `int`) of a package named
`ids` with import path `a/ids`. -/
def idA (n : Int) : Value := .defined "a/ids" "ids" "ID" n

/-- A value of the defined type `ID` of another package named `ids`, whose
path is `b/ids`. -/
def idB (n : Int) : Value := .defined "b/ids" "ids" "ID" n

/-- The heap holding the list `[1, 2]` at addresses 0 and 1 and the list
`[7, 8]` at addresses 2 and 3. -/
def heapTwoLists : Heap :=
  [Node.mk (some 1) (.int 1), Node.mk none (.int 2), Node.mk (some 3) (.int 7),
    Node.mk none (.int 8)]

/-- An untyped list record whose head is the node at address 2. -/
def listAt2 : SList := { Head := some 2, Tail := none, Typed := false }

/-! ## List segments in the heap -/

theorem Seg_nil (h : Heap) (p q : Option Nat) : Seg h p [] q ↔ p = q := Iff.rfl

theorem Seg_cons (h : Heap) (p q : Option Nat) (c : Nat × Value) (cs : List (Nat × Value)) :
    Seg h p (c :: cs) q ↔
      ∃ nx, p = some c.1 ∧ h[c.1]? = some { Next := nx, Data := c.2 } ∧ Seg h nx cs q := Iff.rfl

theorem Seg_append (h : Heap) (cs ds : List (Nat × Value)) (p q : Option Nat) :
    Seg h p (cs ++ ds) q ↔ ∃ m, Seg h p cs m ∧ Seg h m ds q := by
  induction cs generalizing p with
  | nil => simp [Seg_nil]
  | cons c cs ih =>
    simp only [List.cons_append, Seg_cons, ih]
    constructor
    · rintro ⟨nx, hp, hc, m, h1, h2⟩
      exact ⟨m, ⟨nx, hp, hc, h1⟩, h2⟩
    · rintro ⟨m, ⟨nx, hp, hc, h1⟩, h2⟩
      exact ⟨nx, hp, hc, m, h1, h2⟩

theorem Seg_lt (h : Heap) (cs : List (Nat × Value)) (p q : Option Nat)
    (hs : Seg h p cs q) : ∀ c ∈ cs, c.1 < h.length := by
  induction cs generalizing p with
  | nil => simp
  | cons c cs ih =>
    obtain ⟨nx, _, hc, hr⟩ := hs
    intro d hd
    rcases List.mem_cons.1 hd with rfl | hd
    · exact (List.getElem?_eq_some.1 hc).1
    · exact ih nx hr d hd

theorem Seg_alloc (h t : Heap) (cs : List (Nat × Value)) (p q : Option Nat)
    (hs : Seg h p cs q) : Seg (h ++ t) p cs q := by
  induction cs generalizing p with
  | nil => exact hs
  | cons c cs ih =>
    obtain ⟨nx, hp, hc, hr⟩ := hs
    refine ⟨nx, hp, ?_, ih nx hr⟩
    rw [List.getElem?_append_left (List.getElem?_eq_some.1 hc).1]
    exact hc

theorem Seg_set (h : Heap) (a : Nat) (n : Node) (cs : List (Nat × Value)) (p q : Option Nat)
    (ha : ∀ c ∈ cs, c.1 ≠ a) (hs : Seg h p cs q) : Seg (h.set a n) p cs q := by
  induction cs generalizing p with
  | nil => exact hs
  | cons c cs ih =>
    obtain ⟨nx, hp, hc, hr⟩ := hs
    refine ⟨nx, hp, ?_, ih nx (fun d hd => ha d (List.mem_cons_of_mem _ hd)) hr⟩
    rw [List.getElem?_set_ne (Ne.symm (ha c (List.mem_cons_self _ _)))]
    exact hc

theorem Seg_det (h : Heap) (cs ds : List (Nat × Value)) (p : Option Nat)
    (h1 : Seg h p cs none) (h2 : Seg h p ds none) : cs = ds := by
  induction cs generalizing p ds with
  | nil =>
    cases ds with
    | nil => rfl
    | cons d ds =>
      obtain ⟨_, hp, _, _⟩ := h2
      rw [Seg_nil] at h1
      rw [h1] at hp
      cases hp
  | cons c cs ih =>
    obtain ⟨nx, hp, hc, hr⟩ := h1
    cases ds with
    | nil =>
      rw [Seg_nil] at h2
      rw [h2] at hp
      cases hp
    | cons d ds =>
      obtain ⟨nx2, hp2, hd, hr2⟩ := h2
      rw [hp] at hp2
      have e1 : c.1 = d.1 := Option.some.inj hp2
      rw [← e1, hc] at hd
      have e2 := Option.some.inj hd
      have e3 : nx = nx2 := congrArg Node.Next e2
      have e4 : c.2 = d.2 := congrArg Node.Data e2
      subst e3
      rw [ih ds nx hr hr2]
      congr 1
      exact Prod.ext e1 e4

theorem Seg_nodup (h : Heap) (cs : List (Nat × Value)) (p : Option Nat)
    (hs : Seg h p cs none) : (cs.map Prod.fst).Nodup := by
  induction cs generalizing p with
  | nil => simp
  | cons c cs ih =>
    have hall := hs
    obtain ⟨nx, hp, hc, hr⟩ := hs
    rw [List.map_cons, List.nodup_cons]
    refine ⟨?_, ih nx hr⟩
    intro hmem
    obtain ⟨d, hd, hd1⟩ := List.mem_map.1 hmem
    obtain ⟨s, t, rfl⟩ := List.append_of_mem hd
    obtain ⟨m, _, hm⟩ := (Seg_append h s (d :: t) nx none).1 hr
    have hm2 : Seg h p (d :: t) none := by
      obtain ⟨nx2, hq, hdc, hrest⟩ := hm
      exact ⟨nx2, by rw [hp, hd1], hdc, hrest⟩
    have := congrArg List.length (Seg_det h _ _ p hall hm2)
    simp at this
    omega

theorem Seg_length_le (h : Heap) (cs : List (Nat × Value)) (p : Option Nat)
    (hs : Seg h p cs none) : cs.length ≤ h.length := by
  have hnd := Seg_nodup h cs p hs
  have hsub : cs.map Prod.fst ⊆ List.range h.length := by
    intro a ha
    obtain ⟨c, hc, rfl⟩ := List.mem_map.1 ha
    exact List.mem_range.2 (Seg_lt h cs p none hs c hc)
  have := (hnd.subperm hsub).length_le
  simpa using this

theorem Chain_iff_Seg (h : Heap) (xs : List Value) (p : Option Nat) :
    Chain h p xs ↔ ∃ cs, Seg h p cs none ∧ cs.map Prod.snd = xs := by
  induction xs generalizing p with
  | nil =>
    constructor
    · intro hc
      exact ⟨[], hc, rfl⟩
    · rintro ⟨cs, hs, hm⟩
      have : cs = [] := by simpa using hm
      subst this
      exact hs
  | cons x xs ih =>
    constructor
    · intro hc
      unfold Chain at hc
      cases p with
      | none => exact hc.elim
      | some a =>
        simp only at hc
        cases hn : h[a]? with
        | none => rw [hn] at hc; exact hc.elim
        | some n =>
          rw [hn] at hc
          obtain ⟨cs, hs, hm⟩ := (ih n.Next).1 hc.2
          refine ⟨(a, x) :: cs, ⟨n.Next, rfl, ?_, hs⟩, by simp [hm]⟩
          rw [hn, ← hc.1]
    · rintro ⟨cs, hs, hm⟩
      cases cs with
      | nil => simp at hm
      | cons c cs =>
        obtain ⟨nx, hp, hc, hr⟩ := hs
        simp only [List.map_cons, List.cons.injEq] at hm
        subst hp
        unfold Chain
        simp only [hc]
        exact ⟨hm.1, (ih nx).2 ⟨cs, hr, hm.2⟩⟩

theorem deref_of_get (h : Heap) (a : Nat) (n : Node) (hn : h[a]? = some n) :
    deref h (some a) = .ok n := by
  simp [deref, hn]

theorem setNext_of_get (h : Heap) (a : Nat) (n : Node) (nx : Option Nat) (hn : h[a]? = some n) :
    setNext h (some a) nx = .ok (h.set a { Next := nx, Data := n.Data }) := by
  simp [setNext, hn]

theorem lastNode_spec (h : Heap) (cs : List (Nat × Value)) (b : Nat × Value) (a : Nat)
    (fuel : Nat) (hf : cs.length < fuel) (hs : Seg h (some a) (cs ++ [b]) none) :
    lastNode fuel h a = .ok b.1 := by
  induction cs generalizing a fuel with
  | nil =>
    obtain ⟨nx, hp, hc, hr⟩ := hs
    cases fuel with
    | zero => omega
    | succ f =>
      rw [Seg_nil] at hr
      subst hr
      cases hp
      simp [lastNode, deref_of_get h _ _ hc]
  | cons c cs ih =>
    obtain ⟨nx, hp, hc, hr⟩ := hs
    cases fuel with
    | zero => omega
    | succ f =>
      cases hp
      have hnx : ∃ a2, nx = some a2 := by
        cases cs with
        | nil => obtain ⟨_, hq, _, _⟩ := hr; exact ⟨_, hq⟩
        | cons d ds => obtain ⟨_, hq, _, _⟩ := hr; exact ⟨_, hq⟩
      obtain ⟨a2, rfl⟩ := hnx
      simp only [lastNode, deref_of_get h _ _ hc]
      exact ih a2 f (by simp at hf; omega) hr

/-- Insert on a non-empty well-formed chain whose type check passes. -/
theorem Insert_cons_spec (h : Heap) (l : SList) (d : Value) (hd : Nat) (x : Value)
    (xs : List Value) (hh : l.Head = some hd) (hc : Chain h l.Head (x :: xs))
    (ht : l.Typed = false ∨ x.typeName = d.typeName) :
    ∃ h2, Insert h l d = .ok (h2, l, none) ∧ Chain h2 l.Head (x :: xs ++ [d]) ∧
      h2.length = h.length + 1 := by
  obtain ⟨cs, hs, hm⟩ := (Chain_iff_Seg h _ _).1 hc
  rw [hh] at hs
  have hlen := Seg_length_le h cs _ hs
  have hs1 := Seg_alloc h [Node.mk none d] cs _ _ hs
  have hne : cs ≠ [] := by
    intro e; subst e; simp at hm
  obtain ⟨cs0, b, rfl⟩ := (List.eq_nil_or_concat cs).resolve_left hne
  rw [List.concat_eq_append] at *
  -- the head node
  have hhead : ∃ nx, (h ++ [Node.mk none d])[hd]? = some { Next := nx, Data := x } := by
    cases cs0 with
    | nil =>
      obtain ⟨nx, hp, hg, _⟩ := hs1
      simp at hm
      cases hp
      exact ⟨nx, by rw [hg, hm.1]⟩
    | cons c cs1 =>
      obtain ⟨nx, hp, hg, _⟩ := hs1
      simp at hm
      cases hp
      exact ⟨nx, by rw [hg, hm.1]⟩
  obtain ⟨nx0, hhead⟩ := hhead
  have hlast := lastNode_spec _ cs0 b hd (h.length + 1)
    (by simp at hlen; omega) hs1
  obtain ⟨m, hpre, hb⟩ := (Seg_append _ cs0 [b] _ _).1 hs1
  obtain ⟨nxb, hm1, hgb, hnb⟩ := hb
  rw [Seg_nil] at hnb
  subst hnb
  have hnd := Seg_nodup h _ _ hs
  have hblt : b.1 < h.length := Seg_lt h _ _ _ hs b (by simp)
  refine ⟨(h ++ [Node.mk none d]).set b.1 (Node.mk (some h.length) b.2), ?_, ?_, ?_⟩
  · unfold Insert
    simp only [hh, deref_of_get _ _ _ hhead]
    rcases ht with ht | ht <;> simp [ht, hlast, setNext_of_get _ _ _ _ hgb]
  · rw [hh]
    apply (Chain_iff_Seg _ _ _).2
    refine ⟨cs0 ++ [b, (h.length, d)], ?_, ?_⟩
    · apply (Seg_append _ _ _ _ _).2
      refine ⟨m, Seg_set _ _ _ _ _ _ ?_ hpre, ?_⟩
      · intro c hc0 hcb
        rw [List.map_append, List.nodup_append] at hnd
        exact hnd.2.2 (List.mem_map.2 ⟨c, hc0, rfl⟩) (by simp [hcb])
      · refine ⟨some h.length, hm1, ?_, ?_⟩
        · rw [List.getElem?_set_self (by simp; omega)]
        · refine ⟨none, rfl, ?_, rfl⟩
          rw [List.getElem?_set_ne (by omega)]
          simp
    · have e : cs0 ++ [b, (h.length, d)] = (cs0 ++ [b]) ++ [(h.length, d)] := by simp
      rw [e, List.map_append, hm]
      simp
  · simp

theorem Chain_nil_iff (h : Heap) (p : Option Nat) : Chain h p [] ↔ p = none := by
  unfold Chain
  exact Iff.rfl

theorem Chain_head (h : Heap) (p : Option Nat) (x : Value) (xs : List Value)
    (hc : Chain h p (x :: xs)) : ∃ a nx, p = some a ∧ h[a]? = some (Node.mk nx x) := by
  obtain ⟨cs, hs, hm⟩ := (Chain_iff_Seg h _ _).1 hc
  cases cs with
  | nil => simp at hm
  | cons c cs =>
    obtain ⟨nx, hp, hg, _⟩ := hs
    simp at hm
    exact ⟨c.1, nx, hp, by rw [hg, hm.1]⟩

theorem Chain_alloc (h t : Heap) (p : Option Nat) (xs : List Value) (hc : Chain h p xs) :
    Chain (h ++ t) p xs := by
  obtain ⟨cs, hs, hm⟩ := (Chain_iff_Seg h _ _).1 hc
  exact (Chain_iff_Seg _ _ _).2 ⟨cs, Seg_alloc h t cs _ _ hs, hm⟩

theorem Insert_nil_spec (h : Heap) (l : SList) (d : Value) (hh : l.Head = none) :
    Insert h l d = .ok (h ++ [Node.mk none d],
      { Head := some h.length, Tail := l.Tail, Typed := l.Typed }, none) ∧
    Chain (h ++ [Node.mk none d]) (some h.length) [d] := by
  constructor
  · simp [Insert, hh]
  · apply (Chain_iff_Seg _ _ _).2
    exact ⟨[(h.length, d)], ⟨none, rfl, by simp, rfl⟩, rfl⟩

theorem Insert_mismatch_spec (h : Heap) (l : SList) (d x : Value) (xs : List Value)
    (hty : l.Typed = true) (hc : Chain h l.Head (x :: xs))
    (hne : x.typeName ≠ d.typeName) :
    Insert h l d = .ok (h ++ [Node.mk none d], l, some (.ErrMismatchedTypes
      ("Cannot insert value of type (" ++ d.typeName ++
        ") into list having type (" ++ x.typeName ++ ")"))) := by
  obtain ⟨a, nx, hp, hg⟩ := Chain_head h _ _ _ hc
  have hg1 : (h ++ [Node.mk none d])[a]? = some (Node.mk nx x) := by
    rw [List.getElem?_append_left (List.getElem?_eq_some.1 hg).1]
    exact hg
  unfold Insert
  simp [hp, deref_of_get _ _ _ hg1, hty, hne]

theorem Insert_total (h : Heap) (l : SList) (d : Value) (xs : List Value)
    (hc : Chain h l.Head xs) :
    ∃ h1 l1 err, Insert h l d = .ok (h1, l1, err) ∧ l1.Typed = l.Typed ∧ l1.Tail = l.Tail ∧
      Chain h1 l1.Head (if err = none then xs ++ [d] else xs) := by
  cases xs with
  | nil =>
    have hh := (Chain_nil_iff h _).1 hc
    obtain ⟨e1, e2⟩ := Insert_nil_spec h l d hh
    exact ⟨_, _, _, e1, rfl, rfl, by simpa using e2⟩
  | cons x xs =>
    obtain ⟨a, nx, hp, _⟩ := Chain_head h _ _ _ hc
    by_cases ht : l.Typed = false ∨ x.typeName = d.typeName
    · obtain ⟨h2, e1, e2, _⟩ := Insert_cons_spec h l d a x xs hp hc ht
      exact ⟨h2, l, none, e1, rfl, rfl, by simpa using e2⟩
    · push_neg at ht
      have hty : l.Typed = true := by simpa using ht.1
      refine ⟨_, _, _, Insert_mismatch_spec h l d x xs hty hc ht.2, rfl, rfl, ?_⟩
      simpa using Chain_alloc h _ _ _ hc

theorem insertAll_spec (h : Heap) (l : SList) (xs vs : List Value)
    (hc : Chain h l.Head xs) :
    ∃ h1 l1 errs, insertAll h l vs = .ok (h1, l1, errs) ∧ errs.length = vs.length ∧
      ((∀ e ∈ errs, e = none) → Chain h1 l1.Head (xs ++ vs)) := by
  induction vs generalizing h l xs with
  | nil => exact ⟨h, l, [], rfl, rfl, fun _ => by simpa using hc⟩
  | cons v vs ih =>
    obtain ⟨h1, l1, err, e1, _, _, hc1⟩ := Insert_total h l v xs hc
    obtain ⟨h2, l2, errs, e2, hl, hc2⟩ := ih h1 l1 _ hc1
    refine ⟨h2, l2, err :: errs, ?_, by simp [hl], ?_⟩
    · simp [insertAll, e1, e2]
    · intro hall
      have herr : err = none := hall err (List.mem_cons_self _ _)
      have := hc2 (fun e he => hall e (List.mem_cons_of_mem _ he))
      simpa [herr] using this

theorem lastAddr_concat (prev : Option Nat) (cs : List (Nat × Value)) (c : Nat × Value) :
    lastAddr prev (cs ++ [c]) = some c.1 := by
  induction cs generalizing prev with
  | nil => rfl
  | cons d ds ih => exact ih _

theorem Seg_ptr (h : Heap) (p q : Option Nat) (c : Nat × Value) (cs : List (Nat × Value))
    (hs : Seg h p (c :: cs) q) : p = some c.1 := by
  obtain ⟨_, hp, _, _⟩ := hs
  exact hp

theorem Seg_concat_ptr (h : Heap) (p q : Option Nat) (c : Nat × Value)
    (cs : List (Nat × Value)) (hs : Seg h p (cs ++ [c]) q) : ∃ a, p = some a := by
  cases cs with
  | nil => exact ⟨_, Seg_ptr h p q c [] hs⟩
  | cons d ds => exact ⟨_, Seg_ptr h p q d _ hs⟩

theorem reorderLoop_spec (h : Heap) (pre : List (Nat × Value)) (p : Nat) (pv : Value)
    (x : Nat) (next : Option Nat) (curr fuel : Nat) (hf : pre.length < fuel)
    (hs : Seg h (some curr) (pre ++ [(p, pv)]) (some x)) (hne : ∀ c ∈ pre, c.1 ≠ p) :
    reorderLoop fuel h curr p next = .ok (h.set p (Node.mk next pv)) := by
  induction pre generalizing curr fuel with
  | nil =>
    obtain ⟨nx, hp, hc, hr⟩ := hs
    cases fuel with
    | zero => omega
    | succ f =>
      rw [Seg_nil] at hr
      subst hr
      cases hp
      simp [reorderLoop, deref_of_get h _ _ hc, setNext_of_get h _ _ _ hc]
  | cons c cs ih =>
    obtain ⟨nx, hp, hc, hr⟩ := hs
    cases fuel with
    | zero => omega
    | succ f =>
      cases hp
      obtain ⟨a2, rfl⟩ := Seg_concat_ptr h nx _ _ cs hr
      have hcp : c.1 ≠ p := hne c (List.mem_cons_self _ _)
      simp only [reorderLoop, deref_of_get h _ _ hc, if_neg hcp]
      exact ih a2 f (by simp at hf; omega) hr (fun d hd => hne d (List.mem_cons_of_mem _ hd))

/-- Unlinking the cell `(a, v)` through `reorder`: the predecessor found by the
scan is redirected to the successor of `a`. -/
theorem reorder_unlink (h : Heap) (l : SList) (hd a : Nat) (v : Value)
    (pre post : List (Nat × Value)) (nxt : Option Nat) (hh : l.Head = some hd)
    (hs : Seg h (some hd) (pre ++ (a, v) :: post) none)
    (ha : h[a]? = some (Node.mk nxt v)) :
    ∃ h1 l1, reorder h l (lastAddr none pre) nxt = .ok (h1, l1) ∧
      Seg h1 l1.Head (pre ++ post) none ∧ l1.Tail = l.Tail ∧ l1.Typed = l.Typed ∧
      h1.length = h.length := by
  have hnd := Seg_nodup h _ _ hs
  have hlen := Seg_length_le h _ _ hs
  obtain ⟨m, hpre, hrest⟩ := (Seg_append h pre _ _ _).1 hs
  obtain ⟨nx, hm, hga, hpost⟩ := hrest
  simp only at hm hga
  rw [ha] at hga
  have hnx : nxt = nx := congrArg Node.Next (Option.some.inj hga)
  subst hnx
  subst hm
  rcases List.eq_nil_or_concat pre with rfl | ⟨pre0, b, rfl⟩
  · rw [Seg_nil] at hpre
    cases hpre
    refine ⟨h, { Head := nxt, Tail := l.Tail, Typed := l.Typed }, ?_, hpost, rfl, rfl, rfl⟩
    simp [lastAddr, reorder, hh, deref_of_get h _ _ ha]
  · rw [List.concat_eq_append] at *
    have hb : ∀ c ∈ pre0, c.1 ≠ b.1 := by
      intro c hc e
      simp only [List.map_append, List.append_assoc] at hnd
      rw [List.nodup_append] at hnd
      exact hnd.2.2 (List.mem_map.2 ⟨c, hc, rfl⟩) (by simp [e])
    have hbpost : ∀ c ∈ post, c.1 ≠ b.1 := by
      intro c hc e
      simp only [List.map_append, List.append_assoc] at hnd
      rw [List.nodup_append] at hnd
      have h2 := hnd.2.1
      simp only [List.map_cons, List.map_nil, List.singleton_append, List.nodup_cons,
        List.mem_cons, not_or] at h2
      exact h2.1.2 (List.mem_map.2 ⟨c, hc, e⟩)
    have hloop := reorderLoop_spec h pre0 b.1 b.2 a nxt hd h.length
      (by simp at hlen; omega) hpre hb
    refine ⟨h.set b.1 (Node.mk nxt b.2), l, ?_, ?_, rfl, rfl, by simp⟩
    · simp [lastAddr_concat, reorder, hh, hloop]
    · rw [hh, List.append_assoc]
      apply (Seg_append _ _ _ _ _).2
      obtain ⟨m2, hp0, hbseg⟩ := (Seg_append h pre0 _ _ _).1 hpre
      obtain ⟨_, hm2, hgb, _⟩ := hbseg
      refine ⟨m2, Seg_set _ _ _ _ _ _ hb hp0, ?_⟩
      refine ⟨nxt, hm2, ?_, Seg_set _ _ _ _ _ _ hbpost hpost⟩
      rw [List.getElem?_set_self (List.getElem?_eq_some.1 hgb).1]

/-! ## Comparison and removal of a node -/

theorem goEq_of_compares (x val : Value)
    (hc : x.dynType = val.dynType → val.comparable = true) :
    goEq x val = .ok (decide (x = val)) := by
  unfold goEq
  by_cases ht : x.dynType = val.dynType
  · have hx : x.dynType.comparable = true := by
      rw [ht]
      exact hc ht
    rw [if_pos ht, if_pos hx]
  · have hne : x ≠ val := fun e => ht (by rw [e])
    rw [if_neg ht]
    simp [hne]

theorem goEq_panic (x val : Value) (ht : x.dynType = val.dynType)
    (hv : val.comparable = false) : goEq x val = .error .uncomparable := by
  unfold goEq
  have hx : ¬ x.dynType.comparable = true := by
    rw [ht]
    simpa [Value.comparable] using hv
  rw [if_pos ht, if_neg hx]

theorem goEq_self (val : Value) (hv : val.comparable = true) : goEq val val = .ok true := by
  rw [goEq_of_compares val val (fun _ => hv)]
  simp

theorem goEq_other_type (x val : Value) (ht : x.dynType ≠ val.dynType) :
    goEq x val = .ok false := by
  simp [goEq, ht]

theorem mapGet_of_comparable (dMap : Value → Bool) (k : Value) (hk : k.comparable = true) :
    mapGet dMap k = .ok (dMap k) := by
  simp [mapGet, hk]

theorem mapGet_panic (dMap : Value → Bool) (k : Value) (hk : k.comparable = false) :
    mapGet dMap k = .error .unhashable := by
  simp [mapGet, hk]

theorem removeLoop_scan (h : Heap) (l : SList) (val : Value) (cs : List (Nat × Value))
    (b : Nat × Value) (prev : Option Nat) (curr fuel : Nat) (hf : cs.length < fuel)
    (hs : Seg h (some curr) (cs ++ [b]) none) (hne : ∀ c ∈ cs, goEq c.2 val = .ok false) :
    removeLoop fuel h l prev curr val = .ok (h, l, lastAddr prev cs, b.1, false) := by
  induction cs generalizing curr fuel prev with
  | nil =>
    obtain ⟨nx, hp, hc, hr⟩ := hs
    cases fuel with
    | zero => omega
    | succ f =>
      rw [Seg_nil] at hr
      subst hr
      cases hp
      simp [removeLoop, deref_of_get h _ _ hc, lastAddr]
  | cons c cs ih =>
    obtain ⟨nx, hp, hc, hr⟩ := hs
    cases fuel with
    | zero => omega
    | succ f =>
      cases hp
      obtain ⟨a2, rfl⟩ := Seg_concat_ptr h nx _ _ cs hr
      have hcv : goEq c.2 val = .ok false := hne c (List.mem_cons_self _ _)
      simp only [removeLoop, deref_of_get h _ _ hc, hcv, lastAddr]
      exact ih (some c.1) a2 f (by simp at hf; omega) hr
        (fun d hd => hne d (List.mem_cons_of_mem _ hd))

theorem removeLoop_found (h : Heap) (l : SList) (val : Value) (pre : List (Nat × Value))
    (a b : Nat) (prev : Option Nat) (curr fuel : Nat) (hf : pre.length < fuel)
    (hs : Seg h (some curr) (pre ++ [(a, val)]) (some b))
    (hne : ∀ c ∈ pre, goEq c.2 val = .ok false) (hv : goEq val val = .ok true) :
    removeLoop fuel h l prev curr val =
      match reorder h l (lastAddr prev pre) (some b) with
      | .error e => .error e
      | .ok (h1, l1) => .ok (h1, l1, lastAddr prev pre, a, true) := by
  induction pre generalizing curr fuel prev with
  | nil =>
    obtain ⟨nx, hp, hc, hr⟩ := hs
    cases fuel with
    | zero => omega
    | succ f =>
      rw [Seg_nil] at hr
      subst hr
      cases hp
      simp only [removeLoop, deref_of_get h _ _ hc, lastAddr, hv]
  | cons c cs ih =>
    obtain ⟨nx, hp, hc, hr⟩ := hs
    cases fuel with
    | zero => omega
    | succ f =>
      cases hp
      obtain ⟨a2, rfl⟩ := Seg_concat_ptr h nx _ _ cs hr
      have hcv : goEq c.2 val = .ok false := hne c (List.mem_cons_self _ _)
      simp only [removeLoop, deref_of_get h _ _ hc, hcv, lastAddr]
      exact ih (some c.1) a2 f (by simp at hf; omega) hr
        (fun d hd => hne d (List.mem_cons_of_mem _ hd))

/-- The scan reaches a node with a successor whose comparison with `val`
panics: the loop ends with that panic. -/
theorem removeLoop_panic (h : Heap) (l : SList) (val x : Value) (pre : List (Nat × Value))
    (a b : Nat) (e : Fault) (prev : Option Nat) (curr fuel : Nat) (hf : pre.length < fuel)
    (hs : Seg h (some curr) (pre ++ [(a, x)]) (some b))
    (hne : ∀ c ∈ pre, goEq c.2 val = .ok false) (hx : goEq x val = .error e) :
    removeLoop fuel h l prev curr val = .error e := by
  induction pre generalizing curr fuel prev with
  | nil =>
    obtain ⟨nx, hp, hc, hr⟩ := hs
    cases fuel with
    | zero => omega
    | succ f =>
      rw [Seg_nil] at hr
      subst hr
      cases hp
      simp only [removeLoop, deref_of_get h _ _ hc, hx]
  | cons c cs ih =>
    obtain ⟨nx, hp, hc, hr⟩ := hs
    cases fuel with
    | zero => omega
    | succ f =>
      cases hp
      obtain ⟨a2, rfl⟩ := Seg_concat_ptr h nx _ _ cs hr
      have hcv : goEq c.2 val = .ok false := hne c (List.mem_cons_self _ _)
      simp only [removeLoop, deref_of_get h _ _ hc, hcv]
      exact ih (some c.1) a2 f (by simp at hf; omega) hr
        (fun d hd => hne d (List.mem_cons_of_mem _ hd))

theorem checkEmpty_some (l : SList) (hd : Nat) (hh : l.Head = some hd) : checkEmpty l = none := by
  simp [checkEmpty, hh]

theorem checkEmpty_none (l : SList) (hh : l.Head = none) :
    checkEmpty l = some .ErrEmptyList := by
  simp [checkEmpty, hh]

/-- No cell holds `val`: the list is left as it is and `ErrNodeNotFound` is returned. -/
theorem RemoveNode_absent (h : Heap) (l : SList) (val : Value) (hd : Nat)
    (cs : List (Nat × Value)) (hh : l.Head = some hd) (hs : Seg h (some hd) cs none)
    (hne : ∀ c ∈ cs, goEq c.2 val = .ok false) :
    RemoveNode h l val = .ok (h, l, some .ErrNodeNotFound) := by
  have hlen := Seg_length_le h _ _ hs
  rcases List.eq_nil_or_concat cs with rfl | ⟨cs0, b, rfl⟩
  · rw [Seg_nil] at hs
    cases hs
  · rw [List.concat_eq_append] at *
    have hscan := removeLoop_scan h l val cs0 b none hd h.length (by simp at hlen; omega) hs
      (fun c hc => hne c (by simp [hc]))
    obtain ⟨m, _, hb⟩ := (Seg_append h cs0 [b] _ _).1 hs
    obtain ⟨nx, _, hgb, _⟩ := hb
    have hbv : goEq b.2 val = .ok false := hne b (by simp)
    simp [RemoveNode, checkEmpty_some l hd hh, hh, hscan, deref_of_get h _ _ hgb, hbv]

/-- The first cell holding `val` is the last cell: it is unlinked and no error
is returned. -/
theorem RemoveNode_last (h : Heap) (l : SList) (val : Value) (hd a : Nat)
    (pre : List (Nat × Value)) (hh : l.Head = some hd)
    (hs : Seg h (some hd) (pre ++ [(a, val)]) none)
    (hne : ∀ c ∈ pre, goEq c.2 val = .ok false) (hv : goEq val val = .ok true) :
    ∃ h1 l1, RemoveNode h l val = .ok (h1, l1, none) ∧ Seg h1 l1.Head pre none ∧
      l1.Tail = l.Tail ∧ l1.Typed = l.Typed := by
  have hlen := Seg_length_le h _ _ hs
  have hscan := removeLoop_scan h l val pre (a, val) none hd h.length
    (by simp at hlen; omega) hs hne
  obtain ⟨m, _, hb⟩ := (Seg_append h pre [(a, val)] _ _).1 hs
  obtain ⟨nx, _, hga, hnx⟩ := hb
  rw [Seg_nil] at hnx
  subst hnx
  obtain ⟨h1, l1, e1, hseg, ht, hty, _⟩ := reorder_unlink h l hd a val pre [] none hh hs hga
  refine ⟨h1, l1, ?_, by simpa using hseg, ht, hty⟩
  simp [RemoveNode, checkEmpty_some l hd hh, hh, hscan, deref_of_get h _ _ hga, hv, e1]

/-- The first cell holding `val` has a successor: it is unlinked, and the flag
`broke` sends the run to the branch returning `ErrNodeNotFound`. -/
theorem RemoveNode_inner (h : Heap) (l : SList) (val : Value) (hd a : Nat)
    (pre post : List (Nat × Value)) (b : Nat × Value) (hh : l.Head = some hd)
    (hs : Seg h (some hd) (pre ++ (a, val) :: b :: post) none)
    (hne : ∀ c ∈ pre, goEq c.2 val = .ok false) (hv : goEq val val = .ok true) :
    ∃ h1 l1, RemoveNode h l val = .ok (h1, l1, some .ErrNodeNotFound) ∧
      Seg h1 l1.Head (pre ++ b :: post) none ∧ l1.Tail = l.Tail ∧ l1.Typed = l.Typed := by
  have hlen := Seg_length_le h _ _ hs
  obtain ⟨m, hpre, hrest⟩ := (Seg_append h pre _ _ _).1 hs
  obtain ⟨nx, hm, hga, hpost⟩ := hrest
  have hnx := Seg_ptr h nx none b post hpost
  subst hnx
  have hsa : Seg h (some hd) (pre ++ [(a, val)]) (some b.1) :=
    (Seg_append h pre _ _ _).2 ⟨m, hpre, ⟨some b.1, hm, hga, rfl⟩⟩
  have hfound := removeLoop_found h l val pre a b.1 none hd h.length
    (by simp at hlen; omega) hsa hne hv
  obtain ⟨h1, l1, e1, hseg, ht, hty, _⟩ :=
    reorder_unlink h l hd a val pre (b :: post) (some b.1) hh hs hga
  refine ⟨h1, l1, ?_, hseg, ht, hty⟩
  simp [RemoveNode, checkEmpty_some l hd hh, hh, hfound, e1]

/-- The scan reaches a cell whose comparison with `val` panics before any
match: `RemoveNode` ends with that panic. -/
theorem RemoveNode_panic (h : Heap) (l : SList) (val x : Value) (hd a : Nat) (e : Fault)
    (pre post : List (Nat × Value)) (hh : l.Head = some hd)
    (hs : Seg h (some hd) (pre ++ (a, x) :: post) none)
    (hne : ∀ c ∈ pre, goEq c.2 val = .ok false) (hx : goEq x val = .error e) :
    RemoveNode h l val = .error e := by
  have hlen := Seg_length_le h _ _ hs
  cases post with
  | nil =>
    have hscan := removeLoop_scan h l val pre (a, x) none hd h.length
      (by simp at hlen; omega) hs hne
    obtain ⟨m, _, hb⟩ := (Seg_append h pre [(a, x)] _ _).1 hs
    obtain ⟨nx, _, hga, _⟩ := hb
    simp [RemoveNode, checkEmpty_some l hd hh, hh, hscan, deref_of_get h _ _ hga, hx]
  | cons b post =>
    obtain ⟨m, hpre, hrest⟩ := (Seg_append h pre _ _ _).1 hs
    obtain ⟨nx, hm, hga, hpost⟩ := hrest
    have hnx := Seg_ptr h nx none b post hpost
    subst hnx
    have hsa : Seg h (some hd) (pre ++ [(a, x)]) (some b.1) :=
      (Seg_append h pre _ _ _).2 ⟨m, hpre, ⟨some b.1, hm, hga, rfl⟩⟩
    have hp := removeLoop_panic h l val x pre a b.1 e none hd h.length
      (by simp at hlen; omega) hsa hne hx
    simp [RemoveNode, checkEmpty_some l hd hh, hh, hp]

theorem first_occurrence (val : Value) (cs : List (Nat × Value)) :
    (∀ c ∈ cs, c.2 ≠ val) ∨
      ∃ pre a post, cs = pre ++ (a, val) :: post ∧ ∀ c ∈ pre, c.2 ≠ val := by
  induction cs with
  | nil => left; simp
  | cons c cs ih =>
    by_cases hc : c.2 = val
    · right
      exact ⟨[], c.1, cs, by simp [← hc], by simp⟩
    · rcases ih with hall | ⟨pre, a, post, rfl, hpre⟩
      · left
        intro d hd
        rcases List.mem_cons.1 hd with rfl | hd
        · exact hc
        · exact hall d hd
      · right
        refine ⟨c :: pre, a, post, by simp, ?_⟩
        intro d hd
        rcases List.mem_cons.1 hd with rfl | hd
        · exact hc
        · exact hpre d hd

/-- The first cell of a chain that has the dynamic type of `val`, if any. -/
theorem first_of_type (val : Value) (cs : List (Nat × Value)) :
    (∀ c ∈ cs, c.2.dynType ≠ val.dynType) ∨
      ∃ pre c post, cs = pre ++ c :: post ∧ (∀ d ∈ pre, d.2.dynType ≠ val.dynType) ∧
        c.2.dynType = val.dynType := by
  induction cs with
  | nil => left; simp
  | cons c cs ih =>
    by_cases hc : c.2.dynType = val.dynType
    · right
      exact ⟨[], c, cs, by simp, by simp, hc⟩
    · rcases ih with hall | ⟨pre, c2, post, rfl, hpre, hc2⟩
      · left
        intro d hd
        rcases List.mem_cons.1 hd with rfl | hd
        · exact hc
        · exact hall d hd
      · right
        refine ⟨c :: pre, c2, post, by simp, ?_, hc2⟩
        intro d hd
        rcases List.mem_cons.1 hd with rfl | hd
        · exact hc
        · exact hpre d hd

theorem RemoveNode_spec (h : Heap) (l : SList) (val x : Value) (xs : List Value)
    (hc : Chain h l.Head (x :: xs)) (hcmp : ComparesWith val (x :: xs)) :
    ∃ h1 l1, RemoveNode h l val = .ok (h1, l1, removeResult val (x :: xs)) ∧
      Chain h1 l1.Head ((x :: xs).erase val) ∧ l1.Tail = l.Tail ∧ l1.Typed = l.Typed ∧
      (val ∉ x :: xs → h1 = h ∧ l1 = l) := by
  obtain ⟨cs, hs, hm⟩ := (Chain_iff_Seg h _ _).1 hc
  obtain ⟨hd, nx, hh, _⟩ := Chain_head h _ _ _ hc
  rw [hh] at hs
  have hgo : ∀ c ∈ cs, goEq c.2 val = .ok (decide (c.2 = val)) := by
    intro c hcm
    apply goEq_of_compares
    apply hcmp
    rw [← hm]
    exact List.mem_map.2 ⟨c, hcm, rfl⟩
  rcases first_occurrence val cs with hall | ⟨pre, a, post, rfl, hpre⟩
  · have hnot : val ∉ x :: xs := by
      rw [← hm]
      intro hmem
      obtain ⟨c, hc1, hc2⟩ := List.mem_map.1 hmem
      exact hall c hc1 hc2
    have hall2 : ∀ c ∈ cs, goEq c.2 val = .ok false := by
      intro c hcm
      rw [hgo c hcm]
      simp [hall c hcm]
    refine ⟨h, l, ?_, ?_, rfl, rfl, fun _ => ⟨rfl, rfl⟩⟩
    · rw [RemoveNode_absent h l val hd cs hh hs hall2]
      have : removeResult val (x :: xs) = some .ErrNodeNotFound := by
        unfold removeResult
        rw [if_neg]
        rintro ⟨_, h2⟩
        exact hnot (List.mem_of_getLast?_eq_some h2)
      rw [this]
    · rw [List.erase_of_not_mem hnot]
      exact hc
  · have hpre2 : val ∉ pre.map Prod.snd := by
      intro hmem
      obtain ⟨c, hc1, hc2⟩ := List.mem_map.1 hmem
      exact hpre c hc1 hc2
    have hpre3 : ∀ c ∈ pre, goEq c.2 val = .ok false := by
      intro c hcm
      rw [hgo c (by simp [hcm])]
      simp [hpre c hcm]
    have hv : goEq val val = .ok true := by
      have := hgo (a, val) (by simp)
      simpa using this
    have hin : val ∈ x :: xs := by
      rw [← hm]; simp
    have herase : (x :: xs).erase val = pre.map Prod.snd ++ post.map Prod.snd := by
      rw [← hm, List.map_append, List.erase_append_right _ hpre2, List.map_cons,
        List.erase_cons_head]
    rw [herase]
    cases post with
    | nil =>
      obtain ⟨h1, l1, e1, hseg, ht, hty⟩ := RemoveNode_last h l val hd a pre hh hs hpre3 hv
      refine ⟨h1, l1, ?_, ?_, ht, hty, fun hn => (hn hin).elim⟩
      · rw [e1]
        have : removeResult val (x :: xs) = none := by
          unfold removeResult
          rw [if_pos]
          rw [← hm]
          simp [List.dropLast_concat, hpre2]
        rw [this]
      · exact (Chain_iff_Seg _ _ _).2 ⟨pre, hseg, by simp⟩
    | cons b post =>
      obtain ⟨h1, l1, e1, hseg, ht, hty⟩ :=
        RemoveNode_inner h l val hd a pre post b hh hs hpre3 hv
      refine ⟨h1, l1, ?_, ?_, ht, hty, fun hn => (hn hin).elim⟩
      · rw [e1]
        have : removeResult val (x :: xs) = some .ErrNodeNotFound := by
          unfold removeResult
          rw [if_neg]
          rintro ⟨h1, _⟩
          apply h1
          rw [← hm]
          have e : pre ++ (a, val) :: b :: post = (pre ++ (a, val) :: (b :: post).dropLast) ++
              [(b :: post).getLast (by simp)] := by
            rw [List.append_assoc, List.cons_append, List.dropLast_append_getLast]
          rw [e, List.map_append, List.map_singleton, List.dropLast_concat]
          simp
        rw [this]
      · exact (Chain_iff_Seg _ _ _).2 ⟨pre ++ b :: post, hseg, by simp⟩

/-- When `val` shares an uncomparable dynamic type with a value of the list,
`RemoveNode` panics on the comparison. -/
theorem RemoveNode_uncomparable (h : Heap) (l : SList) (val x : Value) (xs : List Value)
    (hc : Chain h l.Head (x :: xs)) (hcmp : ¬ ComparesWith val (x :: xs)) :
    RemoveNode h l val = .error .uncomparable := by
  obtain ⟨cs, hs, hm⟩ := (Chain_iff_Seg h _ _).1 hc
  obtain ⟨hd, nx, hh, _⟩ := Chain_head h _ _ _ hc
  rw [hh] at hs
  unfold ComparesWith at hcmp
  push_neg at hcmp
  obtain ⟨y, hy, hty, hv⟩ := hcmp
  have hv2 : val.comparable = false := by simpa using hv
  rcases first_of_type val cs with hall | ⟨pre, c, post, rfl, hpre, hct⟩
  · rw [← hm] at hy
    obtain ⟨c, hc1, hc2⟩ := List.mem_map.1 hy
    exact (hall c hc1 (by rw [hc2]; exact hty)).elim
  · exact RemoveNode_panic h l val c.2 hd c.1 .uncomparable pre post hh hs
      (fun d hd2 => goEq_other_type d.2 val (hpre d hd2)) (goEq_panic c.2 val hct hv2)

/-! ## Removal of duplicates -/

theorem foldl_keepStep (xs acc : List Value) :
    xs.foldl keepStep acc = acc ++ (firstOccurrences xs).filter (fun y => decide (y ∉ acc)) := by
  induction xs generalizing acc with
  | nil => simp [firstOccurrences]
  | cons x xs ih =>
    rw [List.foldl_cons, ih]
    by_cases hx : x ∈ acc
    · have e : keepStep acc x = acc := by simp [keepStep, hx]
      rw [e]
      congr 1
      simp only [firstOccurrences, List.filter_cons, hx, not_true_eq_false, decide_False,
        Bool.false_eq_true, if_false, List.filter_filter]
      apply List.filter_congr
      intro y _
      by_cases hy : y ∈ acc
      · simp [hy]
      · have : y ≠ x := fun e => hy (e ▸ hx)
        simp [hy, this]
    · have e : keepStep acc x = acc ++ [x] := by simp [keepStep, hx]
      rw [e]
      simp only [firstOccurrences, List.filter_cons, hx, not_false_eq_true, decide_True,
        if_true, List.filter_filter, List.append_assoc, List.singleton_append]
      congr 2
      apply List.filter_congr
      intro y _
      simp only [List.mem_append, List.mem_singleton, not_or, Bool.decide_and, decide_not,
        ne_eq]

theorem firstOccurrences_eq_foldl (xs : List Value) :
    firstOccurrences xs = xs.foldl keepStep [] := by
  rw [foldl_keepStep]
  simp

theorem firstOccurrences_mem (xs : List Value) (v : Value) :
    v ∈ firstOccurrences xs ↔ v ∈ xs := by
  induction xs with
  | nil => simp [firstOccurrences]
  | cons x xs ih =>
    simp only [firstOccurrences, List.mem_cons, List.mem_filter, ih]
    by_cases hv : v = x <;> simp [hv]

theorem Seg_redirect (h : Heap) (k0 : List (Nat × Value)) (b : Nat × Value)
    (p q r : Option Nat) (hs : Seg h p (k0 ++ [b]) q) (hne : ∀ c ∈ k0, c.1 ≠ b.1) :
    Seg (h.set b.1 (Node.mk r b.2)) p (k0 ++ [b]) r := by
  obtain ⟨m, h0, hb⟩ := (Seg_append h k0 _ _ _).1 hs
  obtain ⟨_, hm, hgb, _⟩ := hb
  apply (Seg_append _ _ _ _ _).2
  refine ⟨m, Seg_set _ _ _ _ _ _ hne h0, ⟨r, hm, ?_, rfl⟩⟩
  rw [List.getElem?_set_self (List.getElem?_eq_some.1 hgb).1]

theorem Seg_last_get (h : Heap) (k0 : List (Nat × Value)) (b : Nat × Value)
    (p q : Option Nat) (hs : Seg h p (k0 ++ [b]) q) : h[b.1]? = some (Node.mk q b.2) := by
  obtain ⟨m, _, hb⟩ := (Seg_append h k0 _ _ _).1 hs
  obtain ⟨nx, _, hgb, hq⟩ := hb
  rw [Seg_nil] at hq
  rw [hgb, hq]
theorem Seg_mid_ptr (h : Heap) (p q : Option Nat) (pre tl : List (Nat × Value))
    (u : Nat × Value) (hs : Seg h p (pre ++ u :: tl) q) : ∃ a, p = some a := by
  cases pre with
  | nil => exact ⟨_, Seg_ptr h p q u tl hs⟩
  | cons d ds => exact ⟨_, Seg_ptr h p q d _ hs⟩

/-- The scan of `RemoveDuplicates` walks over the cells `pre`, all of hashable
values and each with a successor, and arrives at the cell `u` with the kept
nodes forming a segment from the head to `u` and the map holding exactly their
values. -/
theorem dupLoop_advance (h : Heap) (head : Option Nat) (pre kept tl : List (Nat × Value))
    (u : Nat × Value) (p : Nat) (dMap : Value → Bool) (fuel : Nat) (hf : pre.length ≤ fuel)
    (hk : Seg h head kept (some p)) (ht : Seg h (some p) (pre ++ u :: tl) none)
    (hnd : ((kept ++ (pre ++ u :: tl)).map Prod.fst).Nodup)
    (hmap : ∀ v, dMap v = true ↔ v ∈ kept.map Prod.snd)
    (hcmp : ∀ c ∈ pre, c.2.comparable = true) :
    ∃ (h1 : Heap) (kept1 : List (Nat × Value)) (dMap1 : Value → Bool),
      dupLoop fuel h ((kept.getLast?).map Prod.fst) p dMap =
        dupLoop (fuel - pre.length) h1 ((kept1.getLast?).map Prod.fst) u.1 dMap1 ∧
      Seg h1 head kept1 (some u.1) ∧ Seg h1 (some u.1) (u :: tl) none ∧
      ((kept1 ++ u :: tl).map Prod.fst).Nodup ∧
      (∀ v, dMap1 v = true ↔ v ∈ kept1.map Prod.snd) ∧
      kept1.map Prod.snd = (pre.map Prod.snd).foldl keepStep (kept.map Prod.snd) ∧
      h1.length = h.length := by
  induction pre generalizing h kept p dMap fuel with
  | nil =>
    have hp := Seg_ptr h _ _ u tl ht
    cases hp
    exact ⟨h, kept, dMap, rfl, hk, ht, hnd, hmap, rfl, rfl⟩
  | cons c pre ih =>
    have hp := Seg_ptr h _ _ c _ ht
    cases hp
    obtain ⟨nx, _, hc, hr⟩ := ht
    obtain ⟨p2, rfl⟩ := Seg_mid_ptr h nx none pre tl u hr
    cases fuel with
    | zero => simp at hf
    | succ f =>
      have hf2 : pre.length ≤ f := by simp at hf; omega
      have hck : c.2.comparable = true := hcmp c (List.mem_cons_self _ _)
      have hmg := mapGet_of_comparable dMap c.2 hck
      have hcmp2 : ∀ d ∈ pre, d.2.comparable = true :=
        fun d hd => hcmp d (List.mem_cons_of_mem _ hd)
      have hsub : (List.length (c :: pre)) = pre.length + 1 := rfl
      by_cases hd : dMap c.2 = true
      · -- a duplicate: the predecessor is redirected past it
        have hmem := (hmap c.2).1 hd
        have hkne : kept ≠ [] := by
          intro e; subst e; simp at hmem
        obtain ⟨k0, b, rfl⟩ := (List.eq_nil_or_concat kept).resolve_left hkne
        rw [List.concat_eq_append] at *
        have hgb := Seg_last_get h k0 b _ _ hk
        have hnd0 := hnd
        simp only [List.map_append, List.append_assoc] at hnd0
        rw [List.nodup_append] at hnd0
        have hb0 : ∀ k ∈ k0, k.1 ≠ b.1 := by
          intro k hkm e
          exact hnd0.2.2 (List.mem_map.2 ⟨k, hkm, rfl⟩) (by simp [e])
        have hbrest : ∀ k ∈ pre ++ u :: tl, k.1 ≠ b.1 := by
          intro k hkm e
          have h2 := hnd0.2.1
          simp only [List.map_cons, List.map_nil, List.singleton_append, List.nodup_cons,
            List.mem_cons, not_or] at h2
          have hk1 : b.1 ∈ (pre ++ u :: tl).map Prod.fst := List.mem_map.2 ⟨k, hkm, e⟩
          apply h2.1
          simp only [List.map_append, List.map_cons] at hk1
          exact List.mem_cons_of_mem _ hk1
        have hnd2 : (((k0 ++ [b]) ++ (pre ++ u :: tl)).map Prod.fst).Nodup := by
          refine hnd.sublist ?_
          apply List.Sublist.map
          apply List.Sublist.append_left
          exact List.sublist_cons_self _ _
        obtain ⟨h1, kept1, dMap1, e1, hs1, hu1, hnd1, hm1, hfold, hlen⟩ :=
          ih (h.set b.1 (Node.mk (some p2) b.2)) (k0 ++ [b]) p2 dMap f hf2
            (Seg_redirect h k0 b _ _ _ hk hb0)
            (Seg_set _ _ _ _ _ _ hbrest hr) hnd2 hmap hcmp2
        refine ⟨h1, kept1, dMap1, ?_, hs1, hu1, hnd1, hm1, ?_, by simpa using hlen⟩
        · rw [hsub, Nat.add_sub_add_right, ← e1]
          simp [dupLoop, deref_of_get h _ _ hc, hmg, hd, setNext_of_get h _ _ _ hgb]
        · have : keepStep (List.map Prod.snd (k0 ++ [b])) c.2 = List.map Prod.snd (k0 ++ [b]) := by
            simp only [keepStep, if_pos hmem]
          rw [hfold]
          simp only [List.map_cons, List.foldl_cons, this]
      · -- a new value: the node is kept and recorded
        have hdf : dMap c.2 = false := by simpa using hd
        have hnot : c.2 ∉ kept.map Prod.snd := fun hm => hd ((hmap c.2).2 hm)
        have hk2 : Seg h head (kept ++ [c]) (some p2) :=
          (Seg_append h kept [c] _ _).2 ⟨some c.1, hk, ⟨some p2, rfl, hc, rfl⟩⟩
        have hnd2 : (((kept ++ [c]) ++ (pre ++ u :: tl)).map Prod.fst).Nodup := by
          simpa using hnd
        have hmap2 : ∀ v, (fun k => if k = c.2 then true else dMap k) v = true ↔
            v ∈ (kept ++ [c]).map Prod.snd := by
          intro v
          by_cases hv : v = c.2
          · simp [hv]
          · simp [hv, hmap v]
        obtain ⟨h1, kept1, dMap1, e1, hs1, hu1, hnd1, hm1, hfold, hlen⟩ :=
          ih h (kept ++ [c]) p2 _ f hf2 hk2 hr hnd2 hmap2 hcmp2
        refine ⟨h1, kept1, dMap1, ?_, hs1, hu1, hnd1, hm1, ?_, hlen⟩
        · rw [hsub, Nat.add_sub_add_right, ← e1]
          simp [dupLoop, deref_of_get h _ _ hc, hmg, hdf]
        · have : keepStep (List.map Prod.snd kept) c.2 = List.map Prod.snd (kept ++ [c]) := by
            simp only [keepStep, if_neg hnot, List.map_append, List.map_cons, List.map_nil]
          rw [hfold]
          simp only [List.map_cons, List.foldl_cons, this]

theorem dupLoop_spec (h : Heap) (head : Option Nat) (rest kept : List (Nat × Value))
    (c : Nat × Value) (dMap : Value → Bool) (fuel : Nat) (hf : rest.length < fuel)
    (hk : Seg h head kept (some c.1)) (ht : Seg h (some c.1) (c :: rest) none)
    (hnd : ((kept ++ c :: rest).map Prod.fst).Nodup)
    (hmap : ∀ v, dMap v = true ↔ v ∈ kept.map Prod.snd)
    (hcmp : ∀ d ∈ (c :: rest).dropLast, d.2.comparable = true) :
    ∃ (h1 : Heap) (kept1 : List (Nat × Value)) (c1 : Nat × Value) (dMap1 : Value → Bool),
      dupLoop fuel h ((kept.getLast?).map Prod.fst) c.1 dMap =
        .ok (h1, (kept1.getLast?).map Prod.fst, c1.1, dMap1) ∧
      Seg h1 head kept1 (some c1.1) ∧ h1[c1.1]? = some (Node.mk none c1.2) ∧
      (∀ k ∈ kept1, k.1 ≠ c1.1) ∧
      (∀ v, dMap1 v = true ↔ v ∈ kept1.map Prod.snd) ∧
      keepStep (kept1.map Prod.snd) c1.2 =
        ((c :: rest).map Prod.snd).foldl keepStep (kept.map Prod.snd) ∧
      c1 = (c :: rest).getLast (List.cons_ne_nil _ _) ∧
      h1.length = h.length := by
  have hsplit := @List.dropLast_append_getLast _ (c :: rest) (List.cons_ne_nil _ _)
  generalize hpre : (c :: rest).dropLast = pre at hsplit hcmp
  generalize hu : (c :: rest).getLast (List.cons_ne_nil _ _) = u at hsplit
  have hplen : pre.length = rest.length := by
    rw [← hpre]
    simp
  rw [← hsplit] at ht hnd
  obtain ⟨h1, kept1, dMap1, e1, hs1, hu1, hnd1, hm1, hfold, hlen⟩ :=
    dupLoop_advance h head pre kept [] u c.1 dMap fuel (by omega) hk ht hnd hmap hcmp
  obtain ⟨nx, _, hgu, hnx⟩ := hu1
  rw [Seg_nil] at hnx
  subst hnx
  obtain ⟨k, hk2⟩ : ∃ k, fuel - pre.length = k + 1 := ⟨fuel - pre.length - 1, by omega⟩
  refine ⟨h1, kept1, u, dMap1, ?_, hs1, hgu, ?_, hm1, ?_, rfl, hlen⟩
  · rw [e1, hk2]
    simp [dupLoop, deref_of_get h1 _ _ hgu]
  · intro k0 hkm e
    rw [List.map_append, List.nodup_append] at hnd1
    exact hnd1.2.2 (List.mem_map.2 ⟨k0, hkm, rfl⟩) (by simp [e])
  · rw [← hsplit, List.map_append, List.foldl_append, ← hfold]
    rfl

theorem first_uncomparable (cs : List (Nat × Value)) :
    (∀ c ∈ cs, c.2.comparable = true) ∨
      ∃ pre u tl, cs = pre ++ u :: tl ∧ (∀ d ∈ pre, d.2.comparable = true) ∧
        u.2.comparable = false := by
  induction cs with
  | nil => left; simp
  | cons c cs ih =>
    by_cases hc : c.2.comparable = true
    · rcases ih with hall | ⟨pre, u, tl, rfl, hpre, hu⟩
      · left
        intro d hd
        rcases List.mem_cons.1 hd with rfl | hd
        · exact hc
        · exact hall d hd
      · right
        refine ⟨c :: pre, u, tl, by simp, ?_, hu⟩
        intro d hd
        rcases List.mem_cons.1 hd with rfl | hd
        · exact hc
        · exact hpre d hd
    · right
      exact ⟨[], c, cs, by simp, by simp, by simpa using hc⟩

/-- The scan and the result of `RemoveDuplicates` on a well-formed non-empty
list of hashable values, whatever `Tail` is: the loop ends without fault, a
predecessor is tracked whenever the node it stops at is a duplicate, and the
method returns no error; with `Tail` nil the chain afterwards holds the first
occurrences. -/
theorem RemoveDuplicates_returns (h : Heap) (l : SList) (x : Value) (xs : List Value)
    (hc : Chain h l.Head (x :: xs)) (hall : AllComparable (x :: xs)) :
    ∃ (hd : Nat) (h1 : Heap) (prev : Option Nat) (curr : Nat) (dMap : Value → Bool) (c : Node)
      (h2 : Heap),
      l.Head = some hd ∧
      dupLoop h.length h none hd (fun _ => false) = .ok (h1, prev, curr, dMap) ∧
      h1[curr]? = some c ∧ (dMap c.Data = true → prev.isSome = true) ∧
      RemoveDuplicates h l = .ok (h2, l, none) ∧
      (l.Tail = none → Chain h2 l.Head (firstOccurrences (x :: xs))) := by
  obtain ⟨cs, hs, hm⟩ := (Chain_iff_Seg h _ _).1 hc
  obtain ⟨hd, nx, hh, _⟩ := Chain_head h _ _ _ hc
  have hlen := Seg_length_le h _ _ hs
  have hnd := Seg_nodup h _ _ hs
  have hcmp : ∀ c ∈ cs, c.2.comparable = true := by
    intro c hcm
    apply hall
    rw [← hm]
    exact List.mem_map.2 ⟨c, hcm, rfl⟩
  cases cs with
  | nil => simp at hm
  | cons c rest =>
    have hp := Seg_ptr h _ _ c rest hs
    rw [hh] at hp
    cases hp
    obtain ⟨h1, kept1, c1, dMap1, e1, hs1, hg1, hne1, hm1, hfold, hc1, _⟩ :=
      dupLoop_spec h l.Head rest [] c (fun _ => false) h.length (by simp at hlen; omega)
        (by rw [hh]; rfl) (by rw [← hh]; exact hs) (by simpa using hnd) (by simp)
        (fun d hd2 => hcmp d (List.mem_of_mem_dropLast hd2))
    simp only [List.getLast?_nil, Option.map_none'] at e1
    rw [hm, List.map_nil, ← firstOccurrences_eq_foldl] at hfold
    have hck : c1.2.comparable = true := by
      apply hcmp
      rw [hc1]
      exact List.getLast_mem _
    have hmg := mapGet_of_comparable dMap1 c1.2 hck
    by_cases hdup : dMap1 c1.2 = true
    · have hmem := (hm1 c1.2).1 hdup
      have hkne : kept1 ≠ [] := by
        intro e; subst e; simp at hmem
      obtain ⟨k0, b, rfl⟩ := (List.eq_nil_or_concat kept1).resolve_left hkne
      rw [List.concat_eq_append] at *
      have hgb := Seg_last_get h1 k0 b _ _ hs1
      have hnd1 : ∀ k ∈ k0, k.1 ≠ b.1 := by
        intro k hkm e
        have hall2 : Seg h1 l.Head ((k0 ++ [b]) ++ [c1]) none :=
          (Seg_append h1 _ [c1] _ _).2 ⟨some c1.1, hs1, ⟨none, rfl, hg1, rfl⟩⟩
        have hnd2 := Seg_nodup h1 _ _ hall2
        simp only [List.map_append, List.append_assoc] at hnd2
        rw [List.nodup_append] at hnd2
        exact hnd2.2.2 (List.mem_map.2 ⟨k, hkm, rfl⟩) (by simp [e])
      refine ⟨c.1, h1, _, c1.1, dMap1, _, h1.set b.1 (Node.mk l.Tail b.2), hh, e1, hg1,
        fun _ => by simp, ?_, ?_⟩
      · simp [RemoveDuplicates, checkEmpty_some l _ hh, hh, e1, deref_of_get h1 _ _ hg1, hmg,
          hdup, setNext_of_get h1 _ _ _ hgb]
      · intro htail
        rw [htail]
        apply (Chain_iff_Seg _ _ _).2
        refine ⟨k0 ++ [b], Seg_redirect h1 k0 b _ _ _ hs1 hnd1, ?_⟩
        rw [← hfold]
        simp only [keepStep, if_pos hmem]
    · have hdf : dMap1 c1.2 = false := by simpa using hdup
      have hnot : c1.2 ∉ kept1.map Prod.snd := fun hmm => hdup ((hm1 c1.2).2 hmm)
      refine ⟨c.1, h1, _, c1.1, dMap1, _, h1, hh, e1, hg1, fun hd2 => (hdup hd2).elim, ?_, ?_⟩
      · simp [RemoveDuplicates, checkEmpty_some l _ hh, hh, e1, deref_of_get h1 _ _ hg1, hmg,
          hdf]
      · intro _
        apply (Chain_iff_Seg _ _ _).2
        refine ⟨kept1 ++ [c1], ?_, ?_⟩
        · exact (Seg_append h1 kept1 [c1] _ _).2 ⟨some c1.1, hs1, ⟨none, rfl, hg1, rfl⟩⟩
        · rw [← hfold]
          simp only [keepStep, if_neg hnot, List.map_append, List.map_cons, List.map_nil]

/-- The effect of `RemoveDuplicates` on a well-formed non-empty list of hashable
values whose `Tail` is nil. -/
theorem RemoveDuplicates_spec (h : Heap) (l : SList) (x : Value) (xs : List Value)
    (hc : Chain h l.Head (x :: xs)) (htail : l.Tail = none)
    (hall : AllComparable (x :: xs)) :
    ∃ h1, RemoveDuplicates h l = .ok (h1, l, none) ∧
      Chain h1 l.Head (firstOccurrences (x :: xs)) := by
  obtain ⟨_, _, _, _, _, _, h2, _, _, _, _, e, hch⟩ := RemoveDuplicates_returns h l x xs hc hall
  exact ⟨h2, e, hch htail⟩

/-- On a well-formed list holding a value of an uncomparable dynamic type,
`RemoveDuplicates` panics when the scan hashes the first such value; no nil
predecessor is dereferenced on the way. -/
theorem RemoveDuplicates_unhashable (h : Heap) (l : SList) (x : Value) (xs : List Value)
    (hc : Chain h l.Head (x :: xs)) (hall : ¬ AllComparable (x :: xs)) :
    RemoveDuplicates h l = .error .unhashable := by
  obtain ⟨cs, hs, hm⟩ := (Chain_iff_Seg h _ _).1 hc
  obtain ⟨hd, nx, hh, _⟩ := Chain_head h _ _ _ hc
  have hlen := Seg_length_le h _ _ hs
  have hnd := Seg_nodup h _ _ hs
  rcases first_uncomparable cs with hcmp | ⟨pre, u, tl, rfl, hpre, hu⟩
  · exfalso
    apply hall
    intro y hy
    rw [← hm] at hy
    obtain ⟨c, hc1, rfl⟩ := List.mem_map.1 hy
    exact hcmp c hc1
  · rw [hh] at hs
    obtain ⟨h1, kept1, dMap1, e1, hs1, hu1, _, _, _, _⟩ :=
      dupLoop_advance h l.Head pre [] tl u hd (fun _ => false) h.length
        (by simp at hlen; omega) (by rw [hh]; rfl) hs (by simpa using hnd) (by simp) hpre
    simp only [List.getLast?_nil, Option.map_none'] at e1
    obtain ⟨k, hk2⟩ : ∃ k, h.length - pre.length = k + 1 :=
      ⟨h.length - pre.length - 1, by simp at hlen; omega⟩
    rw [hk2] at e1
    have hmg := mapGet_panic dMap1 u.2 hu
    obtain ⟨nx2, _, hgu, hrest⟩ := hu1
    cases tl with
    | nil =>
      rw [Seg_nil] at hrest
      subst hrest
      have e2 : dupLoop h.length h none hd (fun _ => false) =
          .ok (h1, (kept1.getLast?).map Prod.fst, u.1, dMap1) := by
        rw [e1]
        simp [dupLoop, deref_of_get h1 _ _ hgu]
      simp [RemoveDuplicates, checkEmpty_some l _ hh, hh, e2, deref_of_get h1 _ _ hgu, hmg]
    | cons d tl =>
      have hnx := Seg_ptr h1 nx2 none d tl hrest
      subst hnx
      have e2 : dupLoop h.length h none hd (fun _ => false) = .error .unhashable := by
        rw [e1]
        simp [dupLoop, deref_of_get h1 _ _ hgu, hmg]
      simp [RemoveDuplicates, checkEmpty_some l _ hh, hh, e2]

/-! ## Traversal with `Range` -/

theorem Range_start (h : Heap) (g : Globals) (l : SList) (a : Nat) (n : Node)
    (hg : g.called = false) (hh : l.Head = some a) (hn : h[a]? = some n) :
    Range h g l = .ok (h, { currN := some a, called := true }, false, n.Data) := by
  simp [Range, hg, checkEmpty_some l a hh, hh, deref_of_get h a n hn]

theorem Range_advance (h : Heap) (l : SList) (a b : Nat) (v : Value) (n : Node)
    (ha : h[a]? = some (Node.mk (some b) v)) (hb : h[b]? = some n) :
    Range h { currN := some a, called := true } l =
      .ok (h, { currN := some b, called := true }, false, n.Data) := by
  simp [Range, deref_of_get h a _ ha, deref_of_get h b n hb]

theorem Range_finish (h : Heap) (l : SList) (a : Nat) (v : Value)
    (ha : h[a]? = some (Node.mk none v)) :
    Range h { currN := some a, called := true } l =
      .ok (h ++ [Node.mk none .nil], { currN := some h.length, called := false }, true,
        Value.nil) := by
  simp [Range, deref_of_get h a _ ha]

/-- With the cursor on the first cell of a nil-terminated segment, the next
calls yield the values of the remaining cells and then report the end. -/
theorem rangeCalls_active (h : Heap) (l : SList) (c : Nat × Value)
    (rest : List (Nat × Value)) (hs : Seg h (some c.1) (c :: rest) none) :
    rangeCalls (rest.length + 1) h { currN := some c.1, called := true } l =
      .ok (h ++ [Node.mk none .nil], { currN := some h.length, called := false },
        rest.map (fun d => (false, d.2)) ++ [(true, Value.nil)]) := by
  induction rest generalizing c with
  | nil =>
    obtain ⟨nx, _, hc, hr⟩ := hs
    rw [Seg_nil] at hr
    subst hr
    simp [rangeCalls, Range_finish h l c.1 c.2 hc]
  | cons d rest ih =>
    obtain ⟨nx, _, hc, hr⟩ := hs
    have hnx := Seg_ptr h nx none d rest hr
    subst hnx
    have hr2 := hr
    obtain ⟨nx2, _, hd, _⟩ := hr2
    have := ih d hr
    simp only [List.length_cons] at this ⊢
    rw [rangeCalls, Range_advance h l c.1 d.1 c.2 _ hc hd]
    simp only [this]
    simp

/-- With the cursor on the first cell, the next `k` calls (for `k` at most the
number of remaining cells) yield the next `k` values. -/
theorem rangeCalls_yield (h : Heap) (l : SList) (c : Nat × Value)
    (rest : List (Nat × Value)) (q : Option Nat) (hs : Seg h (some c.1) (c :: rest) q) :
    rangeCalls rest.length h { currN := some c.1, called := true } l =
      .ok (h, { currN := some ((c :: rest).getLast (by simp)).1, called := true },
        rest.map (fun d => (false, d.2))) := by
  induction rest generalizing c with
  | nil => simp [rangeCalls]
  | cons d rest ih =>
    obtain ⟨nx, _, hc, hr⟩ := hs
    have hnx := Seg_ptr h nx q d rest hr
    subst hnx
    have hr2 := hr
    obtain ⟨nx2, _, hd, _⟩ := hr2
    have := ih d hr
    simp only [List.length_cons] at this ⊢
    rw [rangeCalls, Range_advance h l c.1 d.1 c.2 _ hc hd]
    simp only [this]
    simp [List.getLast_cons]

/-! ## The claims -/

/-- Claim C1. On a freshly constructed list (typed or not, in any heap) a run
of `Insert` calls ends without fault, and when every call returned no error
the chain from `Head` holds exactly the inserted values in insertion order (so
it has as many nodes as there were calls). Equivalently, each `Insert` that
returns no error turns the contents `xs` into `xs ++ [v]`. -/
theorem insert_round_trip (typed : Bool) (h0 : Heap) (vs : List Value) :
    (∃ h l errs, insertAll h0 (CreateList typed) vs = .ok (h, l, errs) ∧
      errs.length = vs.length ∧ ((∀ e ∈ errs, e = none) → Chain h l.Head vs)) ∧
    (∀ (h : Heap) (l : SList) (xs : List Value) (v : Value) (h1 : Heap) (l1 : SList),
      Chain h l.Head xs → Insert h l v = .ok (h1, l1, none) →
        Chain h1 l1.Head (xs ++ [v])) := by
  constructor
  · have hc : Chain h0 (CreateList typed).Head [] := (Chain_nil_iff _ _).2 rfl
    obtain ⟨h, l, errs, e, hl, hch⟩ := insertAll_spec h0 (CreateList typed) [] vs hc
    exact ⟨h, l, errs, e, hl, fun hall => by simpa using hch hall⟩
  · intro h l xs v h1 l1 hc hins
    obtain ⟨h2, l2, err, e, _, _, hch⟩ := Insert_total h l v xs hc
    rw [e] at hins
    simp only [Except.ok.injEq, Prod.mk.injEq] at hins
    obtain ⟨rfl, rfl, rfl⟩ := hins
    simpa using hch

/-- The round trip of claim C1 on the typed list receiving `1, 2, 3`. -/
theorem insert_round_trip_witness :
    ∃ h l, insertAll [] (CreateList true) [.int 1, .int 2, .int 3] =
        .ok (h, l, [none, none, none]) ∧
      Chain h l.Head [.int 1, .int 2, .int 3] := by
  obtain ⟨h, l, errs, e, _, hc⟩ :=
    (insert_round_trip true [] [.int 1, .int 2, .int 3]).1
  have e2 : insertAll [] (CreateList true) [.int 1, .int 2, .int 3] =
      .ok ([Node.mk (some 1) (.int 1), Node.mk (some 2) (.int 2), Node.mk none (.int 3)],
        typedAt0, [none, none, none]) := rfl
  rw [e2] at e
  simp only [Except.ok.injEq, Prod.mk.injEq] at e
  obtain ⟨rfl, rfl, rfl⟩ := e
  exact ⟨_, _, e2, hc (by simp)⟩

/-- Claim C2 as amended. On a typed non-empty list, inserting a value whose
`%T` type text differs from that of the head's value returns
`ErrMismatchedTypes`; the list record is unchanged, the chain from `Head` holds
the same values as before, and no existing node is modified. A value whose
text equals that of the head's value is appended, whatever its dynamic type. -/
theorem insert_mismatch_on_type_text (h : Heap) (l : SList) (d x : Value) (xs : List Value)
    (hty : l.Typed = true) (hc : Chain h l.Head (x :: xs)) :
    (x.typeName ≠ d.typeName →
      ∃ h1 msg, Insert h l d = .ok (h1, l, some (.ErrMismatchedTypes msg)) ∧
        Chain h1 l.Head (x :: xs) ∧ ∀ a, a < h.length → h1[a]? = h[a]?) ∧
    (x.typeName = d.typeName →
      ∃ h1, Insert h l d = .ok (h1, l, none) ∧ Chain h1 l.Head (x :: xs ++ [d])) := by
  constructor
  · intro hne
    refine ⟨_, _, Insert_mismatch_spec h l d x xs hty hc hne, Chain_alloc h _ _ _ hc, ?_⟩
    intro a ha
    exact List.getElem?_append_left ha
  · intro heq
    obtain ⟨a, nx, hp, _⟩ := Chain_head h _ _ _ hc
    obtain ⟨h2, e1, e2, _⟩ := Insert_cons_spec h l d a x xs hp hc (Or.inr heq)
    exact ⟨h2, e1, e2⟩

/-- The amended claim C2 on the typed list `[1, 2, 3, 2]`: the string `"a"` is
refused and the list is as before. -/
theorem insert_mismatch_on_type_text_witness :
    ∃ h1 msg, Insert heap1232 typedAt0 (.str "a") =
        .ok (h1, typedAt0, some (.ErrMismatchedTypes msg)) ∧
      Chain h1 typedAt0.Head [.int 1, .int 2, .int 3, .int 2] ∧
      ∀ a, a < heap1232.length → h1[a]? = heap1232[a]? :=
  (insert_mismatch_on_type_text heap1232 typedAt0 (.str "a") (.int 1)
    [.int 2, .int 3, .int 2] rfl (by simp [Chain, heap1232, typedAt0])).1 (by decide)

/-- Claim C2 as stated fails: into the typed list holding a value of the type
`ID` of the package `a/ids`, `Insert` of a value of the type `ID` of the
package `b/ids` (another dynamic type with the same `%T` text `ids.ID`) returns
no error and appends the value. -/
theorem insert_same_text_counterexample :
    Insert [] (CreateList true) (idA 1) = .ok ([Node.mk none (idA 1)], typedAt0, none) ∧
    (idB 2).dynType ≠ (idA 1).dynType ∧
    Insert [Node.mk none (idA 1)] typedAt0 (idB 2) =
      .ok ([Node.mk (some 1) (idA 1), Node.mk none (idB 2)], typedAt0, none) ∧
    Chain [Node.mk (some 1) (idA 1), Node.mk none (idB 2)] typedAt0.Head [idA 1, idB 2] :=
  ⟨rfl, by decide, rfl, by simp [Chain, typedAt0]⟩

/-- Claim C4, evaluated on the code. On the list `[1, 2, 3, 2]` built by four
`Insert` calls, `RemoveNode(2)` unlinks the first `2` (the contents become
`[1, 3, 2]`) and returns `ErrNodeNotFound`, although a node matched. -/
theorem removeNode_match_reports_not_found :
    insertAll [] (CreateList false) [.int 1, .int 2, .int 3, .int 2] =
      .ok (heap1232, listAt0, [none, none, none, none]) ∧
    RemoveNode heap1232 listAt0 (.int 2) =
      .ok ([Node.mk (some 2) (.int 1), Node.mk (some 2) (.int 2), Node.mk (some 3) (.int 3),
        Node.mk none (.int 2)], listAt0, some .ErrNodeNotFound) ∧
    Chain [Node.mk (some 2) (.int 1), Node.mk (some 2) (.int 2), Node.mk (some 3) (.int 3),
        Node.mk none (.int 2)] listAt0.Head [.int 1, .int 3, .int 2] :=
  ⟨rfl, rfl, by simp [Chain, listAt0]⟩

/-- Claim C7. On a non-empty list holding `v1..vN`, starting with no traversal
active, `N + 1` successive calls of `Range` end without fault: the first `N`
return `false` paired with `v1, ..., vN` in that order and call `N + 1`
returns `true`. -/
theorem range_full_iteration (h : Heap) (g : Globals) (l : SList) (x : Value)
    (xs : List Value) (hc : Chain h l.Head (x :: xs)) (hg : g.called = false) :
    ∃ h1 g1 v, rangeCalls ((x :: xs).length + 1) h g l =
      .ok (h1, g1, (x :: xs).map (fun w => (false, w)) ++ [(true, v)]) := by
  obtain ⟨cs, hs, hm⟩ := (Chain_iff_Seg h _ _).1 hc
  cases cs with
  | nil => simp at hm
  | cons c rest =>
    have hp := Seg_ptr h _ _ c rest hs
    have hs2 := hs
    rw [hp] at hs2
    obtain ⟨nx, _, hgc, _⟩ := hs
    have hrun := rangeCalls_active h l c rest hs2
    have hlen : xs.length = rest.length := by
      have := congrArg List.length hm
      simpa using this.symm
    simp only [List.map_cons, List.cons.injEq] at hm
    refine ⟨h ++ [Node.mk none .nil], { currN := some h.length, called := false },
      Value.nil, ?_⟩
    rw [List.length_cons, hlen, rangeCalls, Range_start h g l c.1 _ hg hp hgc]
    simp only [hrun, List.map_cons, List.cons_append, ← hm.2, List.map_map, hm.1]
    rfl

/-- Claim C7 on `[10, 20, 30]`: the calls yield 10, 20, 30 and then the end. -/
theorem range_full_iteration_witness :
    ∃ h1 g1 v, rangeCalls 4 heap102030 idle listAt0 =
      .ok (h1, g1, [(false, .int 10), (false, .int 20), (false, .int 30), (true, v)]) :=
  range_full_iteration heap102030 idle listAt0 (.int 10) [.int 20, .int 30]
    (by simp [Chain, heap102030, listAt0]) rfl

/-- Claim C8 as amended. On a non-empty list holding `v1..vN`, starting with no
traversal active, the first `N` calls of `Range` yield the values, and the call
made after them returns `true` paired with the nil value (the `Data` of the
fresh empty node the cursor is reset to), whatever the last value was; the
cursor is then inactive. -/
theorem range_end_returns_nil (h : Heap) (g : Globals) (l : SList) (x : Value)
    (xs : List Value) (hc : Chain h l.Head (x :: xs)) (hg : g.called = false) :
    ∃ g1, rangeCalls (x :: xs).length h g l =
        .ok (h, g1, (x :: xs).map (fun w => (false, w))) ∧
      Range h g1 l = .ok (h ++ [Node.mk none .nil],
        { currN := some h.length, called := false }, true, Value.nil) := by
  obtain ⟨cs, hs, hm⟩ := (Chain_iff_Seg h _ _).1 hc
  cases cs with
  | nil => simp at hm
  | cons c rest =>
    have hp := Seg_ptr h _ _ c rest hs
    have hs2 := hs
    rw [hp] at hs2
    have hall := hs
    obtain ⟨nx, _, hgc, _⟩ := hs
    have hrun := rangeCalls_yield h l c rest none hs2
    have hlen : xs.length = rest.length := by
      have := congrArg List.length hm
      simpa using this.symm
    have hlast : ∃ v, h[((c :: rest).getLast (by simp)).1]? = some (Node.mk none v) := by
      have e := @List.dropLast_append_getLast _ (c :: rest) (by simp)
      rw [← e] at hall
      exact ⟨_, Seg_last_get h _ _ _ _ hall⟩
    obtain ⟨v, hv⟩ := hlast
    simp only [List.map_cons, List.cons.injEq] at hm
    refine ⟨_, ?_, Range_finish h l _ v hv⟩
    rw [List.length_cons, hlen, rangeCalls, Range_start h g l c.1 _ hg hp hgc]
    simp only [hrun, List.map_cons, ← hm.2, List.map_map, hm.1]
    rfl

/-- The amended claim C8 on `[10, 20, 30]`. -/
theorem range_end_returns_nil_witness :
    ∃ g1, rangeCalls 3 heap102030 idle listAt0 =
        .ok (heap102030, g1, [(false, .int 10), (false, .int 20), (false, .int 30)]) ∧
      Range heap102030 g1 listAt0 = .ok (heap102030 ++ [Node.mk none .nil],
        { currN := some 3, called := false }, true, Value.nil) :=
  range_end_returns_nil heap102030 idle listAt0 (.int 10) [.int 20, .int 30]
    (by simp [Chain, heap102030, listAt0]) rfl

/-- Claim C8 as stated fails on the list `[10]`: after the call that yields 10,
the next call does not return `true` paired with 10; it returns `true` paired
with nil. -/
theorem range_end_value_counterexample :
    Chain heap10 listAt0.Head [.int 10] ∧
    rangeCalls 1 heap10 idle listAt0 =
      .ok (heap10, { currN := some 0, called := true }, [(false, .int 10)]) ∧
    Range heap10 { currN := some 0, called := true } listAt0 =
      .ok (heap10 ++ [Node.mk none .nil], { currN := some 1, called := false }, true,
        Value.nil) ∧
    ¬ ∃ h1 g1, Range heap10 { currN := some 0, called := true } listAt0 =
      .ok (h1, g1, true, Value.int 10) := by
  refine ⟨by simp [Chain, heap10, listAt0], rfl, rfl, ?_⟩
  rintro ⟨h1, g1, e⟩
  have e2 : Range heap10 { currN := some 0, called := true } listAt0 =
      .ok (heap10 ++ [Node.mk none .nil], { currN := some 1, called := false }, true,
        Value.nil) := rfl
  rw [e2] at e
  simp at e

/-- Claim C9. On a freshly constructed list (typed or not, in any heap) each
of `Display`, `RemoveNode(v)` and `RemoveDuplicates` returns `ErrEmptyList`,
`Display` writes nothing, and the heap and the list are as before, the list
still empty. -/
theorem empty_list_operations_fail (typed : Bool) (h : Heap) (v : Value) :
    Display h (CreateList typed) = .ok (h, CreateList typed, [], some .ErrEmptyList) ∧
    RemoveNode h (CreateList typed) v = .ok (h, CreateList typed, some .ErrEmptyList) ∧
    RemoveDuplicates h (CreateList typed) = .ok (h, CreateList typed, some .ErrEmptyList) ∧
    (CreateList typed).Head = none :=
  ⟨rfl, rfl, rfl, rfl⟩

/-- Claim C10. `Insert` on a well-formed list that is empty (typed or not) or
untyped returns no error and appends the value; into an empty list, the chain
afterwards holds the inserted value alone. -/
theorem insert_succeeds_empty_or_untyped (h : Heap) (l : SList) (d : Value)
    (xs : List Value) (hc : Chain h l.Head xs) (hcase : l.Head = none ∨ l.Typed = false) :
    ∃ h1 l1, Insert h l d = .ok (h1, l1, none) ∧ Chain h1 l1.Head (xs ++ [d]) ∧
      (l.Head = none → Chain h1 l1.Head [d]) := by
  cases xs with
  | nil =>
    have hh := (Chain_nil_iff h _).1 hc
    obtain ⟨e1, e2⟩ := Insert_nil_spec h l d hh
    exact ⟨_, _, e1, by simpa using e2, fun _ => e2⟩
  | cons x xs =>
    obtain ⟨a, nx, hp, _⟩ := Chain_head h _ _ _ hc
    have ht : l.Typed = false := by
      rcases hcase with h0 | h0
      · rw [hp] at h0; cases h0
      · exact h0
    obtain ⟨h2, e1, e2, _⟩ := Insert_cons_spec h l d a x xs hp hc (Or.inl ht)
    refine ⟨h2, l, e1, e2, fun h0 => ?_⟩
    rw [hp] at h0
    cases h0

/-- Claim C10 on the untyped list `[1, 2, 3, 2]` receiving a string, and on an
empty typed list. -/
theorem insert_succeeds_empty_or_untyped_witness :
    (∃ h1 l1, Insert heap1232 listAt0 (.str "a") = .ok (h1, l1, none) ∧
      Chain h1 l1.Head ([.int 1, .int 2, .int 3, .int 2] ++ [.str "a"]) ∧
      (listAt0.Head = none → Chain h1 l1.Head [.str "a"])) ∧
    (∃ h1 l1, Insert [] (CreateList true) (.bool true) = .ok (h1, l1, none) ∧
      Chain h1 l1.Head ([] ++ [.bool true]) ∧
      ((CreateList true).Head = none → Chain h1 l1.Head [.bool true])) :=
  ⟨insert_succeeds_empty_or_untyped heap1232 listAt0 (.str "a") [.int 1, .int 2, .int 3, .int 2]
    (by simp [Chain, heap1232, listAt0]) (Or.inr rfl),
   insert_succeeds_empty_or_untyped [] (CreateList true) (.bool true) []
    (by simp [Chain, CreateList]) (Or.inl rfl)⟩

/-! ## Sequences of calls, frame and traversal: lemmas and claims -/

theorem displayLoop_spec (h : Heap) (rest : List (Nat × Value)) (c : Nat × Value)
    (i fuel : Nat) (out : List Line) (hf : rest.length < fuel)
    (hs : Seg h (some c.1) (c :: rest) none) :
    displayLoop fuel h c.1 i out = .ok (out ++ rowsOf i (c :: rest)) := by
  induction rest generalizing c i fuel out with
  | nil =>
    obtain ⟨nx, _, hc, hr⟩ := hs
    rw [Seg_nil] at hr
    subst hr
    cases fuel with
    | zero => omega
    | succ f => simp [displayLoop, deref_of_get h _ _ hc, rowsOf]
  | cons d rest ih =>
    obtain ⟨nx, _, hc, hr⟩ := hs
    have hnx := Seg_ptr h nx none d rest hr
    subst hnx
    cases fuel with
    | zero => omega
    | succ f =>
      simp only [displayLoop, deref_of_get h _ _ hc]
      rw [ih d (i + 1) f _ (by simp at hf; omega) hr]
      simp [rowsOf]

theorem rowsOf_length (i : Nat) (cs : List (Nat × Value)) : (rowsOf i cs).length = cs.length := by
  induction cs generalizing i with
  | nil => rfl
  | cons c cs ih =>
    cases cs with
    | nil => rfl
    | cons d rest => simp [rowsOf, ih (i + 1)]

theorem rowsOf_get (i k : Nat) (cs : List (Nat × Value)) (c : Nat × Value)
    (hk : cs[k]? = some c) :
    (rowsOf i cs)[k]? = some (.row (i + k) c.2 ((cs[k + 1]?).map Prod.fst)) := by
  induction cs generalizing i k with
  | nil => simp at hk
  | cons c0 cs ih =>
    cases cs with
    | nil =>
      cases k with
      | zero =>
        simp at hk
        subst hk
        simp [rowsOf]
      | succ k => simp at hk
    | cons d rest =>
      cases k with
      | zero =>
        simp at hk
        subst hk
        simp [rowsOf]
      | succ k =>
        have hk2 : (d :: rest)[k]? = some c := by simpa using hk
        have := ih (i + 1) k hk2
        simp only [rowsOf, List.getElem?_cons_succ, this]
        congr 2
        omega

/-- What `Display` does on a well-formed non-empty list, on the cells of its chain. -/
theorem Display_spec (h : Heap) (l : SList) (x : Value) (xs : List Value)
    (hc : Chain h l.Head (x :: xs)) :
    ∃ cs, Seg h l.Head cs none ∧ cs.map Prod.snd = x :: xs ∧
      Display h l = .ok (h, l, .header :: rowsOf 1 cs, none) := by
  obtain ⟨cs, hs, hm⟩ := (Chain_iff_Seg h _ _).1 hc
  have hlen := Seg_length_le h _ _ hs
  refine ⟨cs, hs, hm, ?_⟩
  cases cs with
  | nil => simp at hm
  | cons c rest =>
    have hp := Seg_ptr h _ _ c rest hs
    rw [hp] at hs
    have hloop := displayLoop_spec h rest c 1 h.length [.header] (by simp at hlen; omega) hs
    simp [Display, checkEmpty_some l _ hp, hp, hloop]

theorem Insert_frame (h : Heap) (l : SList) (d : Value) (h1 : Heap) (l1 : SList)
    (err : Option Error) (e : Insert h l d = .ok (h1, l1, err)) :
    l1.Tail = l.Tail ∧ l1.Typed = l.Typed := by
  unfold Insert at e
  simp only at e
  split at e
  · simp only [Except.ok.injEq, Prod.mk.injEq] at e
    obtain ⟨_, rfl, _⟩ := e
    exact ⟨rfl, rfl⟩
  · split at e
    · cases e
    · split at e
      · simp only [Except.ok.injEq, Prod.mk.injEq] at e
        obtain ⟨_, rfl, _⟩ := e
        exact ⟨rfl, rfl⟩
      · split at e
        · cases e
        · split at e
          · cases e
          · simp only [Except.ok.injEq, Prod.mk.injEq] at e
            obtain ⟨_, rfl, _⟩ := e
            exact ⟨rfl, rfl⟩

theorem reorder_frame (h : Heap) (l : SList) (prev next : Option Nat) (h1 : Heap)
    (l1 : SList) (e : reorder h l prev next = .ok (h1, l1)) :
    l1.Tail = l.Tail ∧ l1.Typed = l.Typed := by
  unfold reorder at e
  split at e
  · split at e
    · cases e
    · simp only [Except.ok.injEq, Prod.mk.injEq] at e
      obtain ⟨_, rfl⟩ := e
      exact ⟨rfl, rfl⟩
  · split at e
    · cases e
    · split at e
      · cases e
      · simp only [Except.ok.injEq, Prod.mk.injEq] at e
        obtain ⟨_, rfl⟩ := e
        exact ⟨rfl, rfl⟩

theorem removeLoop_frame (fuel : Nat) (h : Heap) (l : SList) (prev : Option Nat) (curr : Nat)
    (val : Value) (h1 : Heap) (l1 : SList) (prev1 : Option Nat) (curr1 : Nat) (broke : Bool)
    (e : removeLoop fuel h l prev curr val = .ok (h1, l1, prev1, curr1, broke)) :
    l1.Tail = l.Tail ∧ l1.Typed = l.Typed := by
  induction fuel generalizing prev curr with
  | zero => simp [removeLoop] at e
  | succ f ih =>
    unfold removeLoop at e
    split at e
    · cases e
    · split at e
      · simp only [Except.ok.injEq, Prod.mk.injEq] at e
        obtain ⟨_, rfl, _⟩ := e
        exact ⟨rfl, rfl⟩
      · split at e
        · cases e
        · split at e
          · cases e
          · rename_i h2 l2 hre
            simp only [Except.ok.injEq, Prod.mk.injEq] at e
            obtain ⟨_, rfl, _⟩ := e
            exact reorder_frame _ _ _ _ _ _ hre
        · exact ih _ _ e

theorem RemoveNode_frame (h : Heap) (l : SList) (val : Value) (h1 : Heap) (l1 : SList)
    (err : Option Error) (e : RemoveNode h l val = .ok (h1, l1, err)) :
    l1.Tail = l.Tail ∧ l1.Typed = l.Typed := by
  unfold RemoveNode at e
  split at e
  · simp only [Except.ok.injEq, Prod.mk.injEq] at e
    obtain ⟨_, rfl, _⟩ := e
    exact ⟨rfl, rfl⟩
  · split at e
    · cases e
    · split at e
      · cases e
      · rename_i h2 l2 prev curr broke hloop
        have hf := removeLoop_frame _ _ _ _ _ _ _ _ _ _ _ hloop
        split at e
        · simp only [Except.ok.injEq, Prod.mk.injEq] at e
          obtain ⟨_, rfl, _⟩ := e
          exact hf
        · split at e
          · cases e
          · split at e
            · cases e
            · split at e
              · cases e
              · rename_i h3 l3 hre
                simp only [Except.ok.injEq, Prod.mk.injEq] at e
                obtain ⟨_, rfl, _⟩ := e
                have hf2 := reorder_frame _ _ _ _ _ _ hre
                exact ⟨hf2.1.trans hf.1, hf2.2.trans hf.2⟩
            · simp only [Except.ok.injEq, Prod.mk.injEq] at e
              obtain ⟨_, rfl, _⟩ := e
              exact hf

theorem RemoveDuplicates_frame (h : Heap) (l : SList) (h1 : Heap) (l1 : SList)
    (err : Option Error) (e : RemoveDuplicates h l = .ok (h1, l1, err)) : l1 = l := by
  unfold RemoveDuplicates at e
  split at e
  · simp only [Except.ok.injEq, Prod.mk.injEq] at e
    exact e.2.1.symm
  · split at e
    · cases e
    · split at e
      · cases e
      · split at e
        · cases e
        · split at e
          · cases e
          · split at e
            · cases e
            · simp only [Except.ok.injEq, Prod.mk.injEq] at e
              exact e.2.1.symm
          · simp only [Except.ok.injEq, Prod.mk.injEq] at e
            exact e.2.1.symm

theorem Display_frame (h : Heap) (l : SList) (h1 : Heap) (l1 : SList) (out : List Line)
    (err : Option Error) (e : Display h l = .ok (h1, l1, out, err)) : h1 = h ∧ l1 = l := by
  unfold Display at e
  split at e
  · simp only [Except.ok.injEq, Prod.mk.injEq] at e
    exact ⟨e.1.symm, e.2.1.symm⟩
  · split at e
    · cases e
    · split at e
      · cases e
      · simp only [Except.ok.injEq, Prod.mk.injEq] at e
        exact ⟨e.1.symm, e.2.1.symm⟩

theorem step_frame (h : Heap) (g : Globals) (l : SList) (op : Op) (h1 : Heap) (g1 : Globals)
    (l1 : SList) (e : step h g l op = .ok (h1, g1, l1)) :
    l1.Tail = l.Tail ∧ l1.Typed = l.Typed := by
  cases op with
  | insert v =>
    simp only [step] at e
    split at e
    · cases e
    · rename_i h2 l2 err hi
      simp only [Except.ok.injEq, Prod.mk.injEq] at e
      obtain ⟨_, _, rfl⟩ := e
      exact Insert_frame _ _ _ _ _ _ hi
  | removeNode v =>
    simp only [step] at e
    split at e
    · cases e
    · rename_i h2 l2 err hi
      simp only [Except.ok.injEq, Prod.mk.injEq] at e
      obtain ⟨_, _, rfl⟩ := e
      exact RemoveNode_frame _ _ _ _ _ _ hi
  | removeDuplicates =>
    simp only [step] at e
    split at e
    · cases e
    · rename_i h2 l2 err hi
      simp only [Except.ok.injEq, Prod.mk.injEq] at e
      obtain ⟨_, _, rfl⟩ := e
      rw [RemoveDuplicates_frame _ _ _ _ _ hi]
      exact ⟨rfl, rfl⟩
  | display =>
    simp only [step] at e
    split at e
    · cases e
    · rename_i h2 l2 out err hi
      simp only [Except.ok.injEq, Prod.mk.injEq] at e
      obtain ⟨_, _, rfl⟩ := e
      rw [(Display_frame _ _ _ _ _ _ hi).2]
      exact ⟨rfl, rfl⟩
  | range =>
    simp only [step] at e
    split at e
    · cases e
    · simp only [Except.ok.injEq, Prod.mk.injEq] at e
      obtain ⟨_, _, rfl⟩ := e
      exact ⟨rfl, rfl⟩

theorem run_frame (ops : List Op) (h : Heap) (g : Globals) (l : SList) (h1 : Heap)
    (g1 : Globals) (l1 : SList) (e : run h g l ops = .ok (h1, g1, l1)) :
    l1.Tail = l.Tail ∧ l1.Typed = l.Typed := by
  induction ops generalizing h g l with
  | nil =>
    simp only [run, Except.ok.injEq, Prod.mk.injEq] at e
    obtain ⟨_, _, rfl⟩ := e
    exact ⟨rfl, rfl⟩
  | cons op ops ih =>
    simp only [run] at e
    split at e
    · cases e
    · rename_i h2 g2 l2 hs
      have h1 := step_frame _ _ _ _ _ _ _ hs
      have h2 := ih _ _ _ e
      exact ⟨h2.1.trans h1.1, h2.2.trans h1.2⟩

theorem Homogeneous_subset (xs ys : List Value) (hx : Homogeneous xs)
    (hsub : ∀ y ∈ ys, y ∈ xs) : Homogeneous ys :=
  fun a ha b hb => hx a (hsub a ha) b (hsub b hb)

theorem Homogeneous_concat (x d : Value) (xs : List Value) (hx : Homogeneous (x :: xs))
    (hd : x.typeName = d.typeName) : Homogeneous (x :: xs ++ [d]) := by
  have key : ∀ a ∈ x :: xs ++ [d], a.typeName = x.typeName := by
    intro a ha
    rcases List.mem_append.1 ha with ha | ha
    · exact hx a ha x (List.mem_cons_self _ _)
    · rw [List.mem_singleton.1 ha, hd]
  intro a ha b hb
  rw [key a ha, key b hb]

theorem RemoveNode_nil (h : Heap) (l : SList) (v : Value) (hh : l.Head = none) :
    RemoveNode h l v = .ok (h, l, some .ErrEmptyList) := by
  simp [RemoveNode, checkEmpty_none l hh]

theorem RemoveDuplicates_nil (h : Heap) (l : SList) (hh : l.Head = none) :
    RemoveDuplicates h l = .ok (h, l, some .ErrEmptyList) := by
  simp [RemoveDuplicates, checkEmpty_none l hh]

theorem Display_nil (h : Heap) (l : SList) (hh : l.Head = none) :
    Display h l = .ok (h, l, [], some .ErrEmptyList) := by
  simp [Display, checkEmpty_none l hh]

theorem AllComparable_subset (xs ys : List Value) (hx : AllComparable xs)
    (hsub : ∀ y ∈ ys, y ∈ xs) : AllComparable ys :=
  fun a ha => hx a (hsub a ha)

theorem AllComparable_concat (xs : List Value) (d : Value) (hx : AllComparable xs)
    (hd : d.comparable = true) : AllComparable (xs ++ [d]) := by
  intro a ha
  rcases List.mem_append.1 ha with ha | ha
  · exact hx a ha
  · rw [List.mem_singleton.1 ha]
    exact hd

/-- One call other than `Range` on a well-formed list with nil `Tail` either
returns, and then the list is well-formed again (a typed list keeps one type
text, a list of comparable values stays so when the call passes a comparable
value), or it panics on a value of an uncomparable dynamic type. -/
theorem step_inv (h : Heap) (g : Globals) (l : SList) (op : Op) (xs : List Value)
    (hc : Chain h l.Head xs) (ht : l.Tail = none) (hop : op ≠ .range) :
    (∃ h1 l1 ys, step h g l op = .ok (h1, g, l1) ∧ Chain h1 l1.Head ys ∧ l1.Tail = none ∧
      l1.Typed = l.Typed ∧ (l.Typed = true → Homogeneous xs → Homogeneous ys) ∧
      (AllComparable xs → op.comparable = true → AllComparable ys)) ∨
    ((step h g l op = .error .uncomparable ∨ step h g l op = .error .unhashable) ∧
      ¬ (AllComparable xs ∧ op.comparable = true)) := by
  cases op with
  | range => exact (hop rfl).elim
  | insert v =>
    left
    cases xs with
    | nil =>
      have hh := (Chain_nil_iff h _).1 hc
      obtain ⟨e1, e2⟩ := Insert_nil_spec h l v hh
      refine ⟨h ++ [Node.mk none v],
        { Head := some h.length, Tail := l.Tail, Typed := l.Typed }, [v],
        by simp [step, e1], e2, ht, rfl, fun _ _ => ?_, fun _ hv => ?_⟩
      · intro a ha b hb
        rw [List.mem_singleton.1 ha, List.mem_singleton.1 hb]
      · intro a ha
        rw [List.mem_singleton.1 ha]
        exact hv
    | cons x xs =>
      obtain ⟨a, nx, hp, _⟩ := Chain_head h _ _ _ hc
      by_cases hty : l.Typed = false ∨ x.typeName = v.typeName
      · obtain ⟨h2, e1, e2, _⟩ := Insert_cons_spec h l v a x xs hp hc hty
        refine ⟨h2, l, _, by simp [step, e1], e2, ht, rfl, fun htt hx => ?_,
          fun hx hv => AllComparable_concat (x :: xs) v hx hv⟩
        have hxv : x.typeName = v.typeName := by
          rcases hty with h0 | h0
          · rw [htt] at h0; cases h0
          · exact h0
        exact Homogeneous_concat x v xs hx hxv
      · push_neg at hty
        have htt : l.Typed = true := by simpa using hty.1
        have e1 := Insert_mismatch_spec h l v x xs htt hc hty.2
        exact ⟨h ++ [Node.mk none v], l, x :: xs, by simp [step, e1],
          Chain_alloc h _ _ _ hc, ht, rfl, fun _ hx => hx, fun hx _ => hx⟩
  | removeNode v =>
    cases xs with
    | nil =>
      left
      have hh := (Chain_nil_iff h _).1 hc
      exact ⟨h, l, [], by simp [step, RemoveNode_nil h l v hh], hc, ht, rfl, fun _ hx => hx,
        fun hx _ => hx⟩
    | cons x xs =>
      by_cases hcmp : ComparesWith v (x :: xs)
      · left
        obtain ⟨h1, l1, e1, hch, htl, hty, _⟩ := RemoveNode_spec h l v x xs hc hcmp
        refine ⟨h1, l1, _, by simp [step, e1], hch, htl.trans ht, hty, fun _ hx => ?_,
          fun hx _ => ?_⟩
        · exact Homogeneous_subset _ _ hx (fun y hy => List.mem_of_mem_erase hy)
        · exact AllComparable_subset _ _ hx (fun y hy => List.mem_of_mem_erase hy)
      · right
        have e1 := RemoveNode_uncomparable h l v x xs hc hcmp
        refine ⟨Or.inl (by simp [step, e1]), ?_⟩
        rintro ⟨_, hv⟩
        exact hcmp (fun _ _ _ => hv)
  | removeDuplicates =>
    cases xs with
    | nil =>
      left
      have hh := (Chain_nil_iff h _).1 hc
      exact ⟨h, l, [], by simp [step, RemoveDuplicates_nil h l hh], hc, ht, rfl,
        fun _ hx => hx, fun hx _ => hx⟩
    | cons x xs =>
      by_cases hall : AllComparable (x :: xs)
      · left
        obtain ⟨h1, e1, hch⟩ := RemoveDuplicates_spec h l x xs hc ht hall
        refine ⟨h1, l, _, by simp [step, e1], hch, ht, rfl, fun _ hx => ?_, fun hx _ => ?_⟩
        · exact Homogeneous_subset _ _ hx (fun y hy => (firstOccurrences_mem _ y).1 hy)
        · exact AllComparable_subset _ _ hx (fun y hy => (firstOccurrences_mem _ y).1 hy)
      · right
        have e1 := RemoveDuplicates_unhashable h l x xs hc hall
        exact ⟨Or.inr (by simp [step, e1]), fun hh => hall hh.1⟩
  | display =>
    left
    cases xs with
    | nil =>
      have hh := (Chain_nil_iff h _).1 hc
      exact ⟨h, l, [], by simp [step, Display_nil h l hh], hc, ht, rfl, fun _ hx => hx,
        fun hx _ => hx⟩
    | cons x xs =>
      obtain ⟨cs, _, _, e1⟩ := Display_spec h l x xs hc
      exact ⟨h, l, x :: xs, by simp [step, e1], hc, ht, rfl, fun _ hx => hx, fun hx _ => hx⟩

/-- A sequence of calls without `Range` on a well-formed list with nil `Tail`
either returns, with the list well-formed again, or panics on a value of an
uncomparable dynamic type; it returns when all values involved are comparable. -/
theorem run_inv (ops : List Op) (h : Heap) (g : Globals) (l : SList) (xs : List Value)
    (hc : Chain h l.Head xs) (ht : l.Tail = none) (hops : ∀ op ∈ ops, op ≠ Op.range) :
    (∃ h1 l1 ys, run h g l ops = .ok (h1, g, l1) ∧ Chain h1 l1.Head ys ∧ l1.Tail = none ∧
      l1.Typed = l.Typed ∧ (l.Typed = true → Homogeneous xs → Homogeneous ys) ∧
      (AllComparable xs → (∀ op ∈ ops, op.comparable = true) → AllComparable ys)) ∨
    ((run h g l ops = .error .uncomparable ∨ run h g l ops = .error .unhashable) ∧
      ¬ (AllComparable xs ∧ ∀ op ∈ ops, op.comparable = true)) := by
  induction ops generalizing h l xs with
  | nil => exact Or.inl ⟨h, l, xs, rfl, hc, ht, rfl, fun _ hx => hx, fun hx _ => hx⟩
  | cons op ops ih =>
    rcases step_inv h g l op xs hc ht (hops op (List.mem_cons_self _ _)) with
      ⟨h1, l1, ys, e1, hc1, ht1, hty1, hh1, ha1⟩ | ⟨herr, hno⟩
    · rcases ih h1 l1 ys hc1 ht1 (fun o ho => hops o (List.mem_cons_of_mem _ ho)) with
        ⟨h2, l2, zs, e2, hc2, ht2, hty2, hh2, ha2⟩ | ⟨herr2, hno2⟩
      · left
        refine ⟨h2, l2, zs, by simp [run, e1, e2], hc2, ht2, hty2.trans hty1,
          fun htt hx => hh2 (hty1.trans htt) (hh1 htt hx), fun hx hall => ?_⟩
        exact ha2 (ha1 hx (hall op (List.mem_cons_self _ _)))
          (fun o ho => hall o (List.mem_cons_of_mem _ ho))
      · right
        constructor
        · rcases herr2 with e2 | e2
          · exact Or.inl (by simp [run, e1, e2])
          · exact Or.inr (by simp [run, e1, e2])
        · rintro ⟨hx, hall⟩
          exact hno2 ⟨ha1 hx (hall op (List.mem_cons_self _ _)),
            fun o ho => hall o (List.mem_cons_of_mem _ ho)⟩
    · right
      constructor
      · rcases herr with e1 | e1
        · exact Or.inl (by simp [run, e1])
        · exact Or.inr (by simp [run, e1])
      · rintro ⟨hx, hall⟩
        exact hno ⟨hx, hall op (List.mem_cons_self _ _)⟩

/-- Whenever a sequence of calls without `Range` on a constructed list returns,
the list is well-formed, its `Tail` is nil, and a typed list holds values of
one type text. -/
theorem run_sound (ops : List Op) (typed : Bool) (h0 : Heap) (g0 : Globals) (h : Heap)
    (g : Globals) (l : SList) (hops : ∀ op ∈ ops, op ≠ Op.range)
    (e : run h0 g0 (CreateList typed) ops = .ok (h, g, l)) :
    ∃ xs, Chain h l.Head xs ∧ l.Tail = none ∧ l.Typed = typed ∧
      (typed = true → Homogeneous xs) := by
  rcases run_inv ops h0 g0 (CreateList typed) [] ((Chain_nil_iff _ _).2 rfl) rfl hops with
    ⟨h1, l1, ys, e1, hc1, ht1, hty1, hh1, _⟩ | ⟨herr, _⟩
  · rw [e1] at e
    simp only [Except.ok.injEq, Prod.mk.injEq] at e
    obtain ⟨rfl, _, rfl⟩ := e
    exact ⟨ys, hc1, ht1, hty1, fun htt => hh1 htt (fun a ha => by simp at ha)⟩
  · rcases herr with e1 | e1 <;> rw [e1] at e <;> cases e

/-- A sequence of calls without `Range` that passes comparable values only
returns on a constructed list. -/
theorem run_total (ops : List Op) (typed : Bool) (h0 : Heap) (g0 : Globals)
    (hops : ∀ op ∈ ops, op ≠ Op.range) (hall : ∀ op ∈ ops, op.comparable = true) :
    ∃ h l, run h0 g0 (CreateList typed) ops = .ok (h, g0, l) := by
  rcases run_inv ops h0 g0 (CreateList typed) [] ((Chain_nil_iff _ _).2 rfl) rfl hops with
    ⟨h1, l1, ys, e1, _⟩ | ⟨_, hno⟩
  · exact ⟨h1, l1, e1⟩
  · exact (hno ⟨fun a ha => by simp at ha, hall⟩).elim

/-- A full traversal from an inactive cursor, with the exact final state: the
heap has one more (empty) node and the cursor is inactive again. -/
theorem rangeCalls_full (h : Heap) (g : Globals) (l : SList) (x : Value) (xs : List Value)
    (hc : Chain h l.Head (x :: xs)) (hg : g.called = false) :
    rangeCalls ((x :: xs).length + 1) h g l =
      .ok (h ++ [Node.mk none .nil], { currN := some h.length, called := false },
        (x :: xs).map (fun w => (false, w)) ++ [(true, Value.nil)]) := by
  obtain ⟨cs, hs, hm⟩ := (Chain_iff_Seg h _ _).1 hc
  cases cs with
  | nil => simp at hm
  | cons c rest =>
    have hp := Seg_ptr h _ _ c rest hs
    have hs2 := hs
    rw [hp] at hs2
    obtain ⟨nx, _, hgc, _⟩ := hs
    have hrun := rangeCalls_active h l c rest hs2
    have hlen : xs.length = rest.length := by
      have := congrArg List.length hm
      simpa using this.symm
    simp only [List.map_cons, List.cons.injEq] at hm
    rw [List.length_cons, hlen, rangeCalls, Range_start h g l c.1 _ hg hp hgc]
    simp only [hrun, List.map_cons, List.cons_append, ← hm.2, List.map_map, hm.1]
    rfl

theorem Range_end_inactive (h : Heap) (g : Globals) (l : SList) (h1 : Heap) (g1 : Globals)
    (v : Value) (e : Range h g l = .ok (h1, g1, true, v)) : g1.called = false := by
  unfold Range at e
  split at e
  · rename_i hcall
    split at e
    · simp only [Except.ok.injEq, Prod.mk.injEq] at e
      obtain ⟨_, rfl, _⟩ := e
      simpa using hcall
    · split at e
      · cases e
      · simp at e
  · split at e
    · cases e
    · split at e
      · simp only [Except.ok.injEq, Prod.mk.injEq] at e
        obtain ⟨_, rfl, _⟩ := e
        rfl
      · split at e
        · cases e
        · simp at e

/-- Claim C11 as amended. Whenever a sequence of `Insert`, `RemoveNode` and
`RemoveDuplicates` (and `Display`) calls on a list made by `CreateList(true)`
returns, the list is well-formed and an `Insert` of a value whose `%T` type
text differs from that of a value the list currently holds returns
`ErrMismatchedTypes` and leaves the list record and the contents as they are.
When the list is empty (initially, or again after removals) `Insert` accepts a
value of any type. A sequence that passes comparable values only returns. -/
theorem typed_insert_checks_current_contents (h0 : Heap) (g0 : Globals) (ops : List Op)
    (hops : ∀ op ∈ ops, op ≠ Op.range) :
    (∀ h g l, run h0 g0 (CreateList true) ops = .ok (h, g, l) →
      ∃ xs, Chain h l.Head xs ∧
        (∀ d, ∀ x ∈ xs, x.typeName ≠ d.typeName →
          ∃ msg, Insert h l d =
              .ok (h ++ [Node.mk none d], l, some (.ErrMismatchedTypes msg)) ∧
            Chain (h ++ [Node.mk none d]) l.Head xs) ∧
        (xs = [] → ∀ d, ∃ h1 l1, Insert h l d = .ok (h1, l1, none) ∧
          Chain h1 l1.Head [d])) ∧
    ((∀ op ∈ ops, op.comparable = true) →
      ∃ h l, run h0 g0 (CreateList true) ops = .ok (h, g0, l)) := by
  refine ⟨?_, fun hall => run_total ops true h0 g0 hops hall⟩
  intro h g l e
  obtain ⟨xs, hc, _, hty, hhom⟩ := run_sound ops true h0 g0 h g l hops e
  have hx : Homogeneous xs := hhom rfl
  refine ⟨xs, hc, ?_, ?_⟩
  · intro d x hxm hne
    cases xs with
    | nil => simp at hxm
    | cons y ys =>
      have hy : y.typeName ≠ d.typeName := by
        rw [hx y (List.mem_cons_self _ _) x hxm]
        exact hne
      exact ⟨_, Insert_mismatch_spec h l d y ys hty hc hy, Chain_alloc h _ _ _ hc⟩
  · intro hnil d
    subst hnil
    have hh := (Chain_nil_iff h _).1 hc
    obtain ⟨e1, e2⟩ := Insert_nil_spec h l d hh
    exact ⟨_, _, e1, e2⟩

/-- The amended claim C11 on the typed list that received `1`, `"a"` (refused)
and `1`, followed by a removal of 9 and of the duplicates: the run returns the
list `[1]`, and every value of another type text is refused. -/
theorem typed_insert_checks_current_contents_witness :
    run [] idle (CreateList true)
        [.insert (.int 1), .insert (.str "a"), .insert (.int 1), .removeNode (.int 9),
          .removeDuplicates] =
      .ok ([Node.mk none (.int 1), Node.mk none (.str "a"), Node.mk none (.int 1)], idle,
        typedAt0) ∧
    ∃ xs, Chain [Node.mk none (.int 1), Node.mk none (.str "a"), Node.mk none (.int 1)]
        typedAt0.Head xs ∧
      (∀ d, ∀ x ∈ xs, x.typeName ≠ d.typeName →
        ∃ msg, Insert [Node.mk none (.int 1), Node.mk none (.str "a"), Node.mk none (.int 1)]
            typedAt0 d =
            .ok ([Node.mk none (.int 1), Node.mk none (.str "a"), Node.mk none (.int 1)] ++
              [Node.mk none d], typedAt0, some (.ErrMismatchedTypes msg)) ∧
          Chain ([Node.mk none (.int 1), Node.mk none (.str "a"), Node.mk none (.int 1)] ++
            [Node.mk none d]) typedAt0.Head xs) ∧
      (xs = [] → ∀ d, ∃ h1 l1,
        Insert [Node.mk none (.int 1), Node.mk none (.str "a"), Node.mk none (.int 1)]
          typedAt0 d = .ok (h1, l1, none) ∧ Chain h1 l1.Head [d]) :=
  ⟨rfl, (typed_insert_checks_current_contents [] idle
    [.insert (.int 1), .insert (.str "a"), .insert (.int 1), .removeNode (.int 9),
      .removeDuplicates] (by decide)).1 _ _ _ rfl⟩

/-- Claim C11 as stated fails twice. On a typed list, after `Insert(1)` and
`RemoveNode(1)` the list is empty again and `Insert("a")` returns no error and
stores the string, whose dynamic type is not that of the first inserted value.
And on the typed list holding a value of the type `ID` of the package `a/ids`,
`Insert` of a value of the type `ID` of the package `b/ids`, another dynamic
type with the same `%T` text, returns no error and appends the value. -/
theorem typed_insert_after_emptying_counterexample :
    Insert [] (CreateList true) (.int 1) = .ok ([Node.mk none (.int 1)], typedAt0, none) ∧
    run [] idle (CreateList true) [.insert (.int 1), .removeNode (.int 1)] =
      .ok ([Node.mk none (.int 1)], idle, CreateList true) ∧
    Insert [Node.mk none (.int 1)] (CreateList true) (.str "a") =
      .ok ([Node.mk none (.int 1), Node.mk none (.str "a")],
        { Head := some 1, Tail := none, Typed := true }, none) ∧
    Chain [Node.mk none (.int 1), Node.mk none (.str "a")] (some 1) [.str "a"] ∧
    (Value.str "a").dynType ≠ (Value.int 1).dynType ∧
    run [] idle (CreateList true) [.insert (idA 1)] =
      .ok ([Node.mk none (idA 1)], idle, typedAt0) ∧
    Insert [Node.mk none (idA 1)] typedAt0 (idB 2) =
      .ok ([Node.mk (some 1) (idA 1), Node.mk none (idB 2)], typedAt0, none) ∧
    (idB 2).dynType ≠ (idA 1).dynType :=
  ⟨rfl, rfl, rfl, by simp [Chain], by decide, rfl, rfl, by decide⟩

/-- Claim C12 as amended. Whenever a sequence of `Insert`, `RemoveNode` and
`RemoveDuplicates` (and `Display`) calls on a list made by `CreateList(true)`
returns, the list is well-formed and all stored values have one and the same
`%T` type text, that of the head's value. A sequence that passes comparable
values only returns. -/
theorem typed_list_homogeneous (h0 : Heap) (g0 : Globals) (ops : List Op)
    (hops : ∀ op ∈ ops, op ≠ Op.range) :
    (∀ h g l, run h0 g0 (CreateList true) ops = .ok (h, g, l) →
      ∃ xs, Chain h l.Head xs ∧ (∀ x ∈ xs, ∀ y ∈ xs, x.typeName = y.typeName) ∧
        (∀ x ∈ xs.head?, ∀ y ∈ xs, y.typeName = x.typeName)) ∧
    ((∀ op ∈ ops, op.comparable = true) →
      ∃ h l, run h0 g0 (CreateList true) ops = .ok (h, g0, l)) := by
  refine ⟨?_, fun hall => run_total ops true h0 g0 hops hall⟩
  intro h g l e
  obtain ⟨xs, hc, _, _, hhom⟩ := run_sound ops true h0 g0 h g l hops e
  have hx : Homogeneous xs := hhom rfl
  refine ⟨xs, hc, hx, ?_⟩
  intro x hxh y hy
  exact hx y hy x (List.mem_of_mem_head? hxh)

/-- The amended claim C12 on a typed list receiving `1`, `"a"`, `2`, `true`,
`1` with a removal in between: the run returns and the values left have one
type text. -/
theorem typed_list_homogeneous_witness :
    ∃ h l, run [] idle (CreateList true)
        [.insert (.int 1), .insert (.str "a"), .insert (.int 2), .removeNode (.int 1),
          .insert (.bool true), .insert (.int 1), .removeDuplicates] = .ok (h, idle, l) ∧
      ∃ xs, Chain h l.Head xs ∧ (∀ x ∈ xs, ∀ y ∈ xs, x.typeName = y.typeName) ∧
        (∀ x ∈ xs.head?, ∀ y ∈ xs, y.typeName = x.typeName) := by
  obtain ⟨h, l, e⟩ := (typed_list_homogeneous [] idle
    [.insert (.int 1), .insert (.str "a"), .insert (.int 2), .removeNode (.int 1),
      .insert (.bool true), .insert (.int 1), .removeDuplicates] (by decide)).2 (by decide)
  exact ⟨h, l, e, (typed_list_homogeneous [] idle _ (by decide)).1 h idle l e⟩

/-- Claim C12 as stated fails: the typed list that received a value of the
type `ID` of the package `a/ids` and then a value of the type `ID` of the
package `b/ids` holds both, and their dynamic types differ (their `%T` texts
are the same). -/
theorem typed_list_two_types_counterexample :
    run [] idle (CreateList true) [.insert (idA 1), .insert (idB 2)] =
      .ok ([Node.mk (some 1) (idA 1), Node.mk none (idB 2)], idle, typedAt0) ∧
    Chain [Node.mk (some 1) (idA 1), Node.mk none (idB 2)] typedAt0.Head [idA 1, idB 2] ∧
    (idA 1).dynType ≠ (idB 2).dynType ∧ (idA 1).typeName = (idB 2).typeName :=
  ⟨rfl, by simp [Chain, typedAt0], by decide, by decide⟩

/-- Claim C13. While a traversal is active (`called` is true) the result of
`Range` and the state it leaves do not depend on the receiver: for any two
lists the call gives the same result. With the cursor on a node that has a
successor the call yields the successor's value, and with the cursor on a node
without successor it reports the end, whichever list it is called on. -/
theorem range_cursor_process_wide (h : Heap) (g : Globals) (lA lB : SList)
    (hg : g.called = true) :
    Range h g lB = Range h g lA ∧
    (∀ a b v nx w, g.currN = some a → h[a]? = some (Node.mk (some b) v) →
      h[b]? = some (Node.mk nx w) →
      Range h g lB = .ok (h, { currN := some b, called := true }, false, w)) ∧
    (∀ a v, g.currN = some a → h[a]? = some (Node.mk none v) →
      Range h g lB = .ok (h ++ [Node.mk none .nil],
        { currN := some h.length, called := false }, true, Value.nil)) := by
  refine ⟨by simp [Range, hg], ?_, ?_⟩
  · intro a b v nx w hcur ha hb
    have hgg : g = { currN := some a, called := true } := by
      cases g
      simp only at hcur hg
      rw [hcur, hg]
    rw [hgg]
    exact Range_advance h lB a b v _ ha hb
  · intro a v hcur ha
    have hgg : g = { currN := some a, called := true } := by
      cases g
      simp only at hcur hg
      rw [hcur, hg]
    rw [hgg]
    exact Range_finish h lB a v ha

/-- Claim C13 on two lists `A = [1, 2]` and `B = [7, 8]` in one heap: after
`A.Range()` has yielded 1, `B.Range()` yields 2, the next value of `A`. -/
theorem range_cursor_process_wide_witness :
    Range heapTwoLists idle listAt0 =
      .ok (heapTwoLists, { currN := some 0, called := true }, false, .int 1) ∧
    Range heapTwoLists { currN := some 0, called := true } listAt2 =
      .ok (heapTwoLists, { currN := some 1, called := true }, false, .int 2) ∧
    Range heapTwoLists { currN := some 0, called := true } listAt2 =
      Range heapTwoLists { currN := some 0, called := true } listAt0 :=
  ⟨rfl, rfl,
    (range_cursor_process_wide heapTwoLists { currN := some 0, called := true } listAt0
      listAt2 rfl).1⟩

/-- Claim C14. A `Range` call that returns `true` leaves the cursor inactive,
and a call with an inactive cursor on a non-empty list returns `false` with the
value of the list's current head and puts the cursor there. So on a non-empty
list, after a full traversal the next call returns `false` with the head's
value, and a second full traversal returns the same sequence of pairs as the
first. -/
theorem range_restarts_after_end (h : Heap) (g : Globals) (l : SList) (x : Value)
    (xs : List Value) (hc : Chain h l.Head (x :: xs)) (hg : g.called = false) :
    (∀ h0 g0 l0 h1 g1 v, Range h0 g0 l0 = .ok (h1, g1, true, v) → g1.called = false) ∧
    (∀ (h0 : Heap) (g0 : Globals) (l0 : SList) (a : Nat) (n : Node), g0.called = false →
      l0.Head = some a → h0[a]? = some n →
      Range h0 g0 l0 = .ok (h0, { currN := some a, called := true }, false, n.Data)) ∧
    ∃ h1 g1 h2 g2 h3 g3,
      rangeCalls ((x :: xs).length + 1) h g l =
        .ok (h1, g1, (x :: xs).map (fun w => (false, w)) ++ [(true, Value.nil)]) ∧
      g1.called = false ∧
      Range h1 g1 l = .ok (h2, g2, false, x) ∧
      rangeCalls ((x :: xs).length + 1) h1 g1 l =
        .ok (h3, g3, (x :: xs).map (fun w => (false, w)) ++ [(true, Value.nil)]) := by
  refine ⟨fun h0 g0 l0 h1 g1 v e => Range_end_inactive h0 g0 l0 h1 g1 v e,
    fun h0 g0 l0 a n hg0 hh hn => Range_start h0 g0 l0 a n hg0 hh hn, ?_⟩
  have hc1 : Chain (h ++ [Node.mk none .nil]) l.Head (x :: xs) := Chain_alloc h _ _ _ hc
  obtain ⟨a, nx, hp, hga⟩ := Chain_head _ _ _ _ hc1
  refine ⟨_, _, _, _, _, _, rangeCalls_full h g l x xs hc hg, rfl,
    Range_start _ _ l a _ rfl hp hga, rangeCalls_full _ _ l x xs hc1 rfl⟩

/-- Claim C14 on `[10, 20, 30]`. -/
theorem range_restarts_after_end_witness :
    ∃ h1 g1 h2 g2 h3 g3,
      rangeCalls 4 heap102030 idle listAt0 =
        .ok (h1, g1, [(false, .int 10), (false, .int 20), (false, .int 30),
          (true, Value.nil)]) ∧
      g1.called = false ∧
      Range h1 g1 listAt0 = .ok (h2, g2, false, .int 10) ∧
      rangeCalls 4 h1 g1 listAt0 =
        .ok (h3, g3, [(false, .int 10), (false, .int 20), (false, .int 30),
          (true, Value.nil)]) :=
  (range_restarts_after_end heap102030 idle listAt0 (.int 10) [.int 20, .int 30]
    (by simp [Chain, heap102030, listAt0]) rfl).2.2

/-- Claim C15. `CreateList` returns a list whose `Tail` is nil; whenever
`Insert`, `RemoveNode`, `RemoveDuplicates` or `Display` returns, the list it
leaves has the `Tail` it was called with (`Range` has a value receiver and
returns no list); so after any sequence of method calls on a constructed list
`Tail` is nil, and a sequence without `Range` that passes comparable values
only always ends without fault. -/
theorem tail_never_assigned :
    (∀ typed, (CreateList typed).Tail = none) ∧
    (∀ h l d h1 l1 err, Insert h l d = .ok (h1, l1, err) → l1.Tail = l.Tail) ∧
    (∀ h l v h1 l1 err, RemoveNode h l v = .ok (h1, l1, err) → l1.Tail = l.Tail) ∧
    (∀ h l h1 l1 err, RemoveDuplicates h l = .ok (h1, l1, err) → l1.Tail = l.Tail) ∧
    (∀ h l h1 l1 out err, Display h l = .ok (h1, l1, out, err) → l1.Tail = l.Tail) ∧
    (∀ h g l op h1 g1 l1, step h g l op = .ok (h1, g1, l1) → l1.Tail = l.Tail) ∧
    (∀ typed h0 g0 ops h1 g1 l1,
      run h0 g0 (CreateList typed) ops = .ok (h1, g1, l1) → l1.Tail = none) ∧
    (∀ typed h0 g0 ops, (∀ op ∈ ops, op ≠ Op.range) → (∀ op ∈ ops, op.comparable = true) →
      ∃ h1 l1, run h0 g0 (CreateList typed) ops = .ok (h1, g0, l1) ∧ l1.Tail = none) := by
  refine ⟨fun _ => rfl, ?_, ?_, ?_, ?_, ?_, ?_, ?_⟩
  · intro h l d h1 l1 err e
    exact (Insert_frame h l d h1 l1 err e).1
  · intro h l v h1 l1 err e
    exact (RemoveNode_frame h l v h1 l1 err e).1
  · intro h l h1 l1 err e
    rw [RemoveDuplicates_frame h l h1 l1 err e]
  · intro h l h1 l1 out err e
    rw [(Display_frame h l h1 l1 out err e).2]
  · intro h g l op h1 g1 l1 e
    exact (step_frame h g l op h1 g1 l1 e).1
  · intro typed h0 g0 ops h1 g1 l1 e
    exact (run_frame ops h0 g0 (CreateList typed) h1 g1 l1 e).1
  · intro typed h0 g0 ops hops hall
    obtain ⟨h1, l1, e⟩ := run_total ops typed h0 g0 hops hall
    exact ⟨h1, l1, e, (run_frame ops h0 g0 (CreateList typed) h1 g0 l1 e).1⟩

/-- Claim C15 on a run through all five methods. -/
theorem tail_never_assigned_witness :
    run [] idle (CreateList true)
        [.insert (.int 1), .insert (.int 2), .insert (.int 1), .display, .range,
          .removeDuplicates, .removeNode (.int 2), .range] =
      .ok ([Node.mk none (.int 1), Node.mk none (.int 2), Node.mk none (.int 1),
          Node.mk none .nil], { currN := some 3, called := false }, typedAt0) ∧
    typedAt0.Tail = none := by
  have e : run [] idle (CreateList true)
      [.insert (.int 1), .insert (.int 2), .insert (.int 1), .display, .range,
        .removeDuplicates, .removeNode (.int 2), .range] =
      .ok ([Node.mk none (.int 1), Node.mk none (.int 2), Node.mk none (.int 1),
        Node.mk none .nil], { currN := some 3, called := false }, typedAt0) := rfl
  exact ⟨e, tail_never_assigned.2.2.2.2.2.2.1 true [] idle _ _ _ _ e⟩

/-- Claim C18. On a well-formed non-empty list holding `v1..vN`, `Display`
returns no error, leaves the heap and the list as they are, and writes the
header followed by exactly `N` rows: row `k + 1` carries the index `k + 1` and
the value at position `k`, and its successor field is the nil marker exactly
when it is the last row. -/
theorem display_rows (h : Heap) (l : SList) (x : Value) (xs : List Value)
    (hc : Chain h l.Head (x :: xs)) :
    ∃ rows, Display h l = .ok (h, l, .header :: rows, none) ∧
      rows.length = (x :: xs).length ∧
      ∀ k v, (x :: xs)[k]? = some v →
        ∃ nxt, rows[k]? = some (.row (k + 1) v nxt) ∧
          (nxt = none ↔ k + 1 = (x :: xs).length) := by
  obtain ⟨cs, _, hm, e⟩ := Display_spec h l x xs hc
  have hlen : cs.length = (x :: xs).length := by
    rw [← hm, List.length_map]
  refine ⟨rowsOf 1 cs, e, by rw [rowsOf_length, hlen], ?_⟩
  intro k v hk
  rw [← hm, List.getElem?_map] at hk
  cases hck : cs[k]? with
  | none => rw [hck] at hk; cases hk
  | some c =>
    rw [hck] at hk
    simp only [Option.map_some', Option.some.injEq] at hk
    have hklt : k < cs.length := (List.getElem?_eq_some.1 hck).1
    refine ⟨(cs[k + 1]?).map Prod.fst, ?_, ?_⟩
    · rw [rowsOf_get 1 k cs c hck, hk, Nat.add_comm 1 k]
    · rw [← hlen]
      constructor
      · intro hn
        have : cs[k + 1]? = none := by
          cases hq : cs[k + 1]? with
          | none => rfl
          | some q => rw [hq] at hn; cases hn
        have := List.getElem?_eq_none_iff.1 this
        omega
      · intro hn
        rw [List.getElem?_eq_none (by omega)]
        rfl

/-- Claim C18 on `[10, 20, 30]`. -/
theorem display_rows_witness :
    Display heap102030 listAt0 =
      .ok (heap102030, listAt0,
        [.header, .row 1 (.int 10) (some 1), .row 2 (.int 20) (some 2),
          .row 3 (.int 30) none], none) ∧
    ∃ rows, Display heap102030 listAt0 = .ok (heap102030, listAt0, .header :: rows, none) ∧
      rows.length = [Value.int 10, .int 20, .int 30].length ∧
      ∀ k v, [Value.int 10, .int 20, .int 30][k]? = some v →
        ∃ nxt, rows[k]? = some (.row (k + 1) v nxt) ∧
          (nxt = none ↔ k + 1 = [Value.int 10, .int 20, .int 30].length) :=
  ⟨rfl, display_rows heap102030 listAt0 (.int 10) [.int 20, .int 30]
    (by simp [Chain, heap102030, listAt0])⟩

/-- Claim C19. With no traversal active, `Range` on an empty list returns
`true` with the nil value and leaves the heap and the package variables as
they are, so the usage loop ends at its first call with no run of its body. -/
theorem range_on_empty_list (h : Heap) (g : Globals) (l : SList) (fuel : Nat)
    (hh : l.Head = none) (hg : g.called = false) :
    Range h g l = .ok (h, g, true, Value.nil) ∧
    forRange (fuel + 1) h g l = .ok (h, g, []) := by
  have e : Range h g l = .ok (h, g, true, Value.nil) := by
    simp [Range, hg, checkEmpty_none l hh]
  exact ⟨e, by simp [forRange, e]⟩

/-- Claim C19 on a freshly constructed list. -/
theorem range_on_empty_list_witness :
    Range [] idle (CreateList false) = .ok ([], idle, true, Value.nil) ∧
    forRange 1 [] idle (CreateList false) = .ok ([], idle, []) :=
  range_on_empty_list [] idle (CreateList false) 0 rfl rfl

end linkedList
